import Mathlib

/-!
Verification of the order-interpreter core of this repository: the text
primitives (`app/utils/text.py`), the segmenter (`parser.py`), the
normalizer (`resolver.py`) and the menu matcher (`matcher.py`) are embedded
shallowly as executable Lean functions over `List Char`, and the spec's
claims about them are settled as theorems.

Strings are modelled as `List Char`; Python `int` as `Int`; Python
`float`/`Decimal` as `ℚ`.  The third-party fuzzy scorer (rapidfuzz
`fuzz.WRatio`) is not code of this repository: it is modelled as an explicit
`Scorer` parameter (normalized query and candidate in, score in `0..100`
out), threaded through every function that calls it.  The third-party
`unidecode` transliteration is modelled by an explicit accent table covering
the Portuguese alphabet the repository works with (identity elsewhere).
-/

namespace S2P

/-- Strings as lists of characters. -/
abbrev Str := List Char

/-- `s.data` of a string literal, for writing concrete `Str` values. -/
def str (s : String) : Str := s.data

/-- The characters Python `str.split()` / `\s` treat as whitespace
(ASCII range: space, tab, newline, carriage return, vertical tab, form feed). -/
def isPySpace (c : Char) : Bool :=
  c = ' ' || c = '\t' || c = '\n' || c = '\r' || c = Char.ofNat 11 || c = Char.ofNat 12

/-- Accent table: (accented character, ASCII transliteration, lowercase form).
Models the `unidecode` transliteration (second component) and Python
case-insensitive matching (third component) on the Portuguese alphabet. -/
def accentTable : List (Char × Char × Char) :=
  [ ('á', 'a', 'á'), ('à', 'a', 'à'), ('â', 'a', 'â'), ('ã', 'a', 'ã'), ('ä', 'a', 'ä'),
    ('é', 'e', 'é'), ('è', 'e', 'è'), ('ê', 'e', 'ê'), ('ë', 'e', 'ë'),
    ('í', 'i', 'í'), ('ì', 'i', 'ì'), ('î', 'i', 'î'), ('ï', 'i', 'ï'),
    ('ó', 'o', 'ó'), ('ò', 'o', 'ò'), ('ô', 'o', 'ô'), ('õ', 'o', 'õ'), ('ö', 'o', 'ö'),
    ('ú', 'u', 'ú'), ('ù', 'u', 'ù'), ('û', 'u', 'û'), ('ü', 'u', 'ü'),
    ('ç', 'c', 'ç'), ('ñ', 'n', 'ñ'),
    ('Á', 'A', 'á'), ('À', 'A', 'à'), ('Â', 'A', 'â'), ('Ã', 'A', 'ã'), ('Ä', 'A', 'ä'),
    ('É', 'E', 'é'), ('È', 'E', 'è'), ('Ê', 'E', 'ê'), ('Ë', 'E', 'ë'),
    ('Í', 'I', 'í'), ('Ì', 'I', 'ì'), ('Î', 'I', 'î'), ('Ï', 'I', 'ï'),
    ('Ó', 'O', 'ó'), ('Ò', 'O', 'ò'), ('Ô', 'O', 'ô'), ('Õ', 'O', 'õ'), ('Ö', 'O', 'ö'),
    ('Ú', 'U', 'ú'), ('Ù', 'U', 'ù'), ('Û', 'U', 'û'), ('Ü', 'U', 'ü'),
    ('Ç', 'C', 'ç'), ('Ñ', 'N', 'ñ') ]

/-- Look up a character in the accent table. -/
def accentLookup (c : Char) : Option (Char × Char) :=
  (accentTable.find? (fun e => e.1 = c)).map (fun e => e.2)

/-- `unidecode` on one character: transliterate accented letters to ASCII,
leave everything else alone. -/
def deaccentChar (c : Char) : Char :=
  match accentLookup c with
  | some (a, _) => a
  | none => c

/-- The ASCII uppercase-to-lowercase table. -/
def asciiUpperTable : List (Char × Char) :=
  [ ('A', 'a'), ('B', 'b'), ('C', 'c'), ('D', 'd'), ('E', 'e'), ('F', 'f'),
    ('G', 'g'), ('H', 'h'), ('I', 'i'), ('J', 'j'), ('K', 'k'), ('L', 'l'),
    ('M', 'm'), ('N', 'n'), ('O', 'o'), ('P', 'p'), ('Q', 'q'), ('R', 'r'),
    ('S', 's'), ('T', 't'), ('U', 'u'), ('V', 'v'), ('W', 'w'), ('X', 'x'),
    ('Y', 'y'), ('Z', 'z') ]

/-- ASCII lowercasing, as Python `str.lower` acts on ASCII characters. -/
def asciiLower (c : Char) : Char :=
  match asciiUpperTable.find? (fun e => e.1 = c) with
  | some e => e.2
  | none => c

/-- Python `str.lower` on one character: ASCII letters and the accented
letters of the table. -/
def pyLower (c : Char) : Char :=
  match accentLookup c with
  | some (_, l) => l
  | none => asciiLower c

/-- Case-insensitive character comparison (Python `re.IGNORECASE`). -/
def charIEq (a b : Char) : Bool := pyLower a = pyLower b

/-- Python `\w` (unicode): ASCII alphanumerics, underscore, accented letters. -/
def isWordChar (c : Char) : Bool :=
  c.isAlphanum || c = '_' || (accentLookup c).isSome

/-- Drop characters satisfying `p` from the end of the list. -/
def dropEndWhile (p : Char → Bool) (s : Str) : Str :=
  (s.reverse.dropWhile p).reverse

/-- Python `str.strip()` (no arguments): strip whitespace from both ends. -/
def stripWs (s : Str) : Str :=
  dropEndWhile isPySpace (s.dropWhile isPySpace)

/-- Python `str.strip(chars)`: strip any of the given characters from both ends. -/
def stripAnyOf (bad : Str) (s : Str) : Str :=
  dropEndWhile (fun c => bad.contains c) (s.dropWhile (fun c => bad.contains c))

/-- Helper for `splitWs`: accumulate the current word (reversed) while scanning. -/
def splitWsAux : Str → Str → List Str
  | [], acc => if acc = [] then [] else [acc.reverse]
  | c :: t, acc =>
      if isPySpace c then
        (if acc = [] then splitWsAux t [] else acc.reverse :: splitWsAux t [])
      else splitWsAux t (c :: acc)

/-- Python `str.split()`: split on whitespace runs, dropping empty parts. -/
def splitWs (s : Str) : List Str := splitWsAux s []

/-- Python `" ".join(words)`. -/
def joinSpace : List Str → Str
  | [] => []
  | [w] => w
  | w :: ws => w ++ ' ' :: joinSpace ws

/-- `text.normalize_text`: strip accents, lowercase, collapse whitespace runs
to single spaces, strip leading/trailing punctuation. -/
def normalize_text (s : Str) : Str :=
  if s = [] then []
  else
    stripAnyOf (str ".,!?;:\"'")
      (joinSpace (splitWs (s.map (fun c => asciiLower (deaccentChar c)))))

/-- `text.make_fingerprint`: strip accents, lowercase, keep only `[a-z0-9]`. -/
def make_fingerprint (s : Str) : Str :=
  if s = [] then []
  else (s.map (fun c => asciiLower (deaccentChar c))).filter
    (fun c => ('a' ≤ c && c ≤ 'z') || c.isDigit)

/-- Numeric value of a digit run. -/
def natOfDigits (ds : Str) : Nat :=
  ds.foldl (fun n c => 10 * n + (c.toNat - 48)) 0

/-- Helper for `digitRuns`: accumulate the current digit run (reversed). -/
def digitRunsAux : Str → Str → List Str
  | [], acc => if acc = [] then [] else [acc.reverse]
  | c :: t, acc =>
      if c.isDigit then digitRunsAux t (c :: acc)
      else if acc = [] then digitRunsAux t [] else acc.reverse :: digitRunsAux t []

/-- The maximal digit runs of a string, in order (Python `re.findall(r"\d+", s)`). -/
def digitRuns (s : Str) : List Str := digitRunsAux s []

/-- `text.extract_numbers`: every digit run of the text as an integer. -/
def extract_numbers (s : Str) : List Int :=
  (digitRuns s).map (fun d => (natOfDigits d : Int))

/-- The digits part of `int(float(s))` after the optional sign: integer
digits, an optional fractional part, nothing else; the value is the signed
integer part. -/
def pyFloatTail (sign : Int) (u : Str) : Option Int :=
  let ip := u.takeWhile Char.isDigit
  let rest := u.dropWhile Char.isDigit
  match rest with
  | [] => if ip = [] then none else some (sign * natOfDigits ip)
  | '.' :: t =>
      let fp := t.takeWhile Char.isDigit
      let rest2 := t.dropWhile Char.isDigit
      if rest2 = [] && (ip ≠ [] || fp ≠ []) then some (sign * natOfDigits ip)
      else none
  | _ => none

/-- Python `int(float(s))` on decimal literals `[+-]? digits [. digits]` (at
least one digit): the integer part with the sign, truncated toward zero.
Exponent/infinity spellings of Python float literals are not modelled; on
them this parse fails where Python would succeed, but the repository only
reaches this code with word quantities and plain digit runs. -/
def pyFloatToInt (s : Str) : Option Int :=
  match s with
  | '+' :: t => pyFloatTail 1 t
  | '-' :: t => pyFloatTail (-1) t
  | t => pyFloatTail 1 t

/-- The word-to-number map of `text.parse_quantity`. -/
def quantityWordMap : List (Str × Int) :=
  [ (str "um", 1), (str "uma", 1),
    (str "dois", 2), (str "duas", 2),
    (str "tres", 3),
    (str "quatro", 4),
    (str "cinco", 5),
    (str "seis", 6), (str "meia duzia", 6),
    (str "sete", 7),
    (str "oito", 8),
    (str "nove", 9),
    (str "dez", 10),
    (str "onze", 11),
    (str "doze", 12), (str "uma duzia", 12) ]

/-- First value bound to `k` in an association list. -/
def lookupQty : List (Str × Int) → Str → Option Int
  | [], _ => none
  | (a, v) :: t, k => if a = k then some v else lookupQty t k

/-- `text.parse_quantity`: normalize, try the word map, then `int(float(s))`,
then the first digit run, defaulting to 1. -/
def parse_quantity (s : Str) : Int :=
  let t := normalize_text s
  match lookupQty quantityWordMap t with
  | some n => n
  | none =>
      match pyFloatToInt t with
      | some n => n
      | none =>
          match extract_numbers t with
          | n :: _ => n
          | [] => 1

/-- The fuzzy scorer (rapidfuzz `fuzz.WRatio`), an external library the
repository calls: modelled as a parameter mapping the normalized query and a
normalized candidate to a score in `0..100`. -/
abbrev Scorer := Str → Str → ℚ

/-- Helper for `extractOne`: fold keeping the first candidate with the
strictly greatest score (rapidfuzz keeps the incumbent on ties). -/
def extractOneAux (scorer : Scorer) (query : Str) :
    List Str → Nat → Option (Str × ℚ × Nat) → Option (Str × ℚ × Nat)
  | [], _, best => best
  | c :: t, i, best =>
      let sc := scorer query c
      match best with
      | none => extractOneAux scorer query t (i + 1) (some (c, sc, i))
      | some (bc, bs, bi) =>
          if bs < sc then extractOneAux scorer query t (i + 1) (some (c, sc, i))
          else extractOneAux scorer query t (i + 1) (some (bc, bs, bi))

/-- rapidfuzz `process.extractOne` (no score cutoff): the best candidate with
its score and index, ties broken by input order; `none` only on an empty list. -/
def extractOne (scorer : Scorer) (query : Str) (cands : List Str) :
    Option (Str × ℚ × Nat) :=
  extractOneAux scorer query cands 0 none

/-- `text.find_best_match`: normalize query and candidates, take the best by
the scorer; `(none, 0)` on an empty candidate list, `(none, score)` when the
best score (divided by 100) is below the threshold, otherwise the original
candidate with its score. -/
def find_best_match (scorer : Scorer) (query : Str) (candidates : List Str)
    (threshold : ℚ) : Option Str × ℚ :=
  if candidates.isEmpty then (none, 0)
  else
    let qn := normalize_text query
    let cn := candidates.map normalize_text
    match extractOne scorer qn cn with
    | none => (none, 0)
    | some (_, score100, idx) =>
        let score := score100 / 100
        if score < threshold then (none, score)
        else (candidates.getD idx [], score)

/-- Stable descending insertion by score (second component). -/
def insertScoredDesc (x : Str × ℚ × Nat) :
    List (Str × ℚ × Nat) → List (Str × ℚ × Nat)
  | [] => [x]
  | y :: t => if y.2.1 < x.2.1 then x :: y :: t else y :: insertScoredDesc x t

/-- Stable sort, descending by score, ties in input order (rapidfuzz
`process.extract` result order). -/
def sortScoredDesc : List (Str × ℚ × Nat) → List (Str × ℚ × Nat)
  | [] => []
  | x :: t => insertScoredDesc x (sortScoredDesc t)

/-- `text.find_matches`: the top `limit` candidates by score, then those at
or above the threshold, as (original candidate, score) pairs. -/
def find_matches (scorer : Scorer) (query : Str) (candidates : List Str)
    (threshold : ℚ) (limit : Nat) : List (Str × ℚ) :=
  if candidates.isEmpty then []
  else
    let qn := normalize_text query
    let cn := candidates.map normalize_text
    let scored := (cn.zip (List.range cn.length)).map
      (fun p => (p.1, scorer qn p.1, p.2))
    let top := (sortScoredDesc scored).take limit
    (top.filter (fun p => threshold ≤ p.2.1 / 100)).map
      (fun p => (candidates.getD p.2.2 [], p.2.1 / 100))

/-! ### Pattern machinery

The parser/resolver regexes are hand-compiled to functions over `Str`.  A
pattern alternative made of literal characters and `\s+` gaps is a
`List Tok`; matching is case-insensitive (`re.IGNORECASE`), `\s+` consumes a
maximal whitespace run (in every pattern of the repository the token after a
gap is a non-space character, so the greedy run is exact). -/

/-- One token of a hand-compiled pattern: a literal character
(case-insensitive) or a `\s+` whitespace gap. -/
inductive Tok
  | ch (c : Char)
  | gap
deriving DecidableEq

/-- Compile a pattern string: every space stands for `\s+`. -/
def toks (s : String) : List Tok :=
  s.data.map (fun c => if c = ' ' then Tok.gap else Tok.ch c)

/-- Match a literal pattern pointwise with the given character comparison;
returns the rest of the input. -/
def matchLit (eq : Char → Char → Bool) : Str → Str → Option Str
  | [], s => some s
  | _ :: _, [] => none
  | p :: ps, c :: t => if eq c p then matchLit eq ps t else none

/-- Match a token pattern; returns `(consumed, rest)`. -/
def matchToksSplit : List Tok → Str → Option (Str × Str)
  | [], s => some ([], s)
  | Tok.ch _ :: _, [] => none
  | Tok.ch p :: ts, c :: t =>
      if charIEq c p then
        match matchToksSplit ts t with
        | some (con, rest) => some (c :: con, rest)
        | none => none
      else none
  | Tok.gap :: ts, s =>
      if s.takeWhile isPySpace = [] then none
      else
        match matchToksSplit ts (s.dropWhile isPySpace) with
        | some (con, rest) => some (s.takeWhile isPySpace ++ con, rest)
        | none => none

/-- Match a token pattern; returns only the rest. -/
def matchToks (ts : List Tok) (s : Str) : Option Str :=
  (matchToksSplit ts s).map (fun q => q.2)

theorem matchToksSplit_append :
    ∀ (ts : List Tok) (s con rest : Str),
      matchToksSplit ts s = some (con, rest) → con ++ rest = s := by
  intro ts
  induction ts with
  | nil =>
      intro s con rest h
      simp only [matchToksSplit, Option.some.injEq, Prod.mk.injEq] at h
      rw [← h.1, ← h.2]
      rfl
  | cons tk ts ih =>
      intro s con rest h
      cases tk with
      | ch p =>
          cases s with
          | nil => simp [matchToksSplit] at h
          | cons c t =>
              by_cases hc : charIEq c p
              · cases hm : matchToksSplit ts t with
                | none => simp [matchToksSplit, hc, hm] at h
                | some q =>
                    obtain ⟨q1, q2⟩ := q
                    simp only [matchToksSplit, hc, if_true, hm,
                      Option.some.injEq, Prod.mk.injEq] at h
                    rw [← h.1, ← h.2]
                    simpa using ih t q1 q2 hm
              · simp [matchToksSplit, hc] at h
      | gap =>
          by_cases hrun : s.takeWhile isPySpace = []
          · simp [matchToksSplit, hrun] at h
          · cases hm : matchToksSplit ts (s.dropWhile isPySpace) with
            | none => simp [matchToksSplit, hrun, hm] at h
            | some q =>
                obtain ⟨q1, q2⟩ := q
                simp only [matchToksSplit, hrun, if_false, hm,
                  Option.some.injEq, Prod.mk.injEq] at h
                rw [← h.1, ← h.2]
                have h2 := ih _ q1 q2 hm
                calc (s.takeWhile isPySpace ++ q1) ++ q2
                    = s.takeWhile isPySpace ++ (q1 ++ q2) := by simp
                  _ = s.takeWhile isPySpace ++ s.dropWhile isPySpace := by rw [h2]
                  _ = s := List.takeWhile_append_dropWhile isPySpace s

theorem matchToksSplit_consumed_ne_nil :
    ∀ (ts : List Tok) (s con rest : Str), ts ≠ [] →
      matchToksSplit ts s = some (con, rest) → con ≠ [] := by
  intro ts s con rest hts h
  cases ts with
  | nil => exact absurd rfl hts
  | cons tk ts =>
      cases tk with
      | ch p =>
          cases s with
          | nil => simp [matchToksSplit] at h
          | cons c t =>
              by_cases hc : charIEq c p
              · cases hm : matchToksSplit ts t with
                | none => simp [matchToksSplit, hc, hm] at h
                | some q =>
                    obtain ⟨q1, q2⟩ := q
                    simp only [matchToksSplit, hc, if_true, hm,
                      Option.some.injEq, Prod.mk.injEq] at h
                    rw [← h.1]
                    simp
              · simp [matchToksSplit, hc] at h
      | gap =>
          by_cases hrun : s.takeWhile isPySpace = []
          · simp [matchToksSplit, hrun] at h
          · cases hm : matchToksSplit ts (s.dropWhile isPySpace) with
            | none => simp [matchToksSplit, hrun, hm] at h
            | some q =>
                obtain ⟨q1, q2⟩ := q
                simp only [matchToksSplit, hrun, if_false, hm,
                  Option.some.injEq, Prod.mk.injEq] at h
                rw [← h.1]
                intro habs
                exact hrun (List.append_eq_nil.mp habs).1

theorem matchToksSplit_rest_lt
    (ts : List Tok) (s con rest : Str) (hts : ts ≠ [])
    (h : matchToksSplit ts s = some (con, rest)) : rest.length < s.length := by
  have happ := matchToksSplit_append _ _ _ _ h
  have hne := matchToksSplit_consumed_ne_nil _ _ _ _ hts h
  have hlen : s.length = con.length + rest.length := by
    rw [← happ]; simp
  have hpos : 0 < con.length := List.length_pos.mpr hne
  omega

/-- Is the scan position at a `\b` boundary, given the preceding character
(none at the start of the string)?  Every keyword of the repository starts
and ends with a word character, so `\b` before a keyword means the preceding
character is not a word character. -/
def boundaryBefore : Option Char → Bool
  | none => true
  | some c => !isWordChar c

/-- `\b` after a keyword ending in a word character: next char absent or not
a word character. -/
def boundaryAfterOk : Str → Bool
  | [] => true
  | c :: _ => !isWordChar c

/-- Does one of the keyword alternatives match at this position, with a `\b`
boundary after it?  Alternatives are tried in pattern order. -/
def kwMatchRest (kws : List (List Tok)) (s : Str) : Option (Str × Str) :=
  match kws with
  | [] => none
  | kw :: more =>
      match matchToksSplit kw s with
      | some (con, rest) =>
          if boundaryAfterOk rest then some (con, rest) else kwMatchRest more s
      | none => kwMatchRest more s

theorem kwMatchRest_rest_lt :
    ∀ (kws : List (List Tok)) (s con rest : Str),
      (∀ kw ∈ kws, kw ≠ []) →
      kwMatchRest kws s = some (con, rest) → rest.length < s.length := by
  intro kws
  induction kws with
  | nil => intro s con rest _ h; simp [kwMatchRest] at h
  | cons kw more ih =>
      intro s con rest hne h
      have hkw : kw ≠ [] := hne kw (List.mem_cons_self _ _)
      cases hm : matchToksSplit kw s with
      | none =>
          simp only [kwMatchRest, hm] at h
          exact ih s con rest (fun k hk => hne k (List.mem_cons_of_mem _ hk)) h
      | some q =>
          obtain ⟨q1, q2⟩ := q
          simp only [kwMatchRest, hm] at h
          by_cases hb : boundaryAfterOk q2
          · simp only [hb, if_true, Option.some.injEq, Prod.mk.injEq] at h
            rw [← h.2]
            exact matchToksSplit_rest_lt kw s q1 q2 hkw hm
          · simp only [hb, if_false] at h
            exact ih s con rest (fun k hk => hne k (List.mem_cons_of_mem _ hk)) h

theorem kwMatchRest_consumed_ne_nil :
    ∀ (kws : List (List Tok)) (s con rest : Str),
      (∀ kw ∈ kws, kw ≠ []) →
      kwMatchRest kws s = some (con, rest) → con ≠ [] := by
  intro kws
  induction kws with
  | nil => intro s con rest _ h; simp [kwMatchRest] at h
  | cons kw more ih =>
      intro s con rest hne h
      cases hm : matchToksSplit kw s with
      | none =>
          simp only [kwMatchRest, hm] at h
          exact ih s con rest (fun k hk => hne k (List.mem_cons_of_mem _ hk)) h
      | some q =>
          obtain ⟨q1, q2⟩ := q
          simp only [kwMatchRest, hm] at h
          by_cases hb : boundaryAfterOk q2
          · simp only [hb, if_true, Option.some.injEq, Prod.mk.injEq] at h
            rw [← h.1]
            exact matchToksSplit_consumed_ne_nil _ _ _ _
              (hne kw (List.mem_cons_self _ _)) hm
          · simp only [hb, if_false] at h
            exact ih s con rest (fun k hk => hne k (List.mem_cons_of_mem _ hk)) h

/-- `bool(re.search(...))` for a word-bounded keyword alternation
`\b(kw1|kw2|...)\b`: scan every position, tracking the preceding character. -/
def searchKwAux (kws : List (List Tok)) : Option Char → Str → Bool
  | prev, [] =>
      boundaryBefore prev && (kwMatchRest kws []).isSome
  | prev, c :: t =>
      (boundaryBefore prev && (kwMatchRest kws (c :: t)).isSome) ||
        searchKwAux kws (some c) t

/-- Word-bounded keyword alternation search from the start of the string. -/
def containsKw (kws : List (List Tok)) (s : Str) : Bool :=
  searchKwAux kws none s

/-- `re.search(...).start()` for a word-bounded keyword alternation: the
index of the first position where one of the keywords matches. -/
def searchKwIdxAux (kws : List (List Tok)) : Option Char → Nat → Str → Option Nat
  | prev, i, [] =>
      if boundaryBefore prev && (kwMatchRest kws []).isSome then some i else none
  | prev, i, c :: t =>
      if boundaryBefore prev && (kwMatchRest kws (c :: t)).isSome then some i
      else searchKwIdxAux kws (some c) (i + 1) t

/-- Index of the first word-bounded keyword match, if any. -/
def searchKwIdx (kws : List (List Tok)) (s : Str) : Option Nat :=
  searchKwIdxAux kws none 0 s

/-- `re.sub(r"\b(kw1|...)\b", rep, s)`: replace every word-bounded,
non-overlapping occurrence (leftmost first, alternatives in order).
Structural recursion on a fuel bound: every match of a non-empty keyword
consumes at least one character, so fuel `length + 1` never runs out. -/
def subKwAux (kws : List (List Tok)) (rep : Str) :
    Nat → Option Char → Str → Str
  | 0, _, s => s
  | _ + 1, _, [] => []
  | fuel + 1, prev, c :: t =>
      if boundaryBefore prev then
        match kwMatchRest kws (c :: t) with
        | some (con, rest) => rep ++ subKwAux kws rep fuel con.getLast? rest
        | none => c :: subKwAux kws rep fuel (some c) t
      else c :: subKwAux kws rep fuel (some c) t

/-- Word-bounded substitution from the start of the string. -/
def subKw (kws : List (List Tok)) (rep : Str) (s : Str) : Str :=
  subKwAux kws rep (s.length + 1) none s

theorem matchLit_length :
    ∀ (eq : Char → Char → Bool) (pat s rest : Str),
      matchLit eq pat s = some rest → s.length = pat.length + rest.length := by
  intro eq pat
  induction pat with
  | nil =>
      intro s rest h
      simp only [matchLit, Option.some.injEq] at h
      rw [h]; simp
  | cons p ps ih =>
      intro s rest h
      cases s with
      | nil => simp [matchLit] at h
      | cons c t =>
          by_cases hc : eq c p
          · simp only [matchLit, hc, if_true] at h
            have := ih t rest h
            simp [this]; omega
          · simp [matchLit, hc] at h

/-- Replace every non-overlapping occurrence of the literal pattern `pat`
(compared with `eq`) by `rep`: Python `str.replace` with `eq` character
equality, `re.sub` of a literal pattern with `eq := charIEq`.  Structural
recursion on fuel; a non-empty pattern consumes at least one character per
match, so fuel `length + 1` never runs out. -/
def replaceLitAux (eq : Char → Char → Bool) (pat rep : Str) :
    Nat → Str → Str
  | 0, s => s
  | _ + 1, [] => []
  | fuel + 1, c :: t =>
      match matchLit eq pat (c :: t) with
      | some rest => rep ++ replaceLitAux eq pat rep fuel rest
      | none => c :: replaceLitAux eq pat rep fuel t

/-- Python `s.replace(pat, rep)` (case-sensitive literal). -/
def pyReplace (pat rep : Str) (s : Str) : Str :=
  if pat = [] then s else replaceLitAux (fun a b => a = b) pat rep (s.length + 1) s

/-- `re.sub` of a literal pattern with `re.IGNORECASE`. -/
def replaceCI (pat rep : Str) (s : Str) : Str :=
  if pat = [] then s else replaceLitAux charIEq pat rep (s.length + 1) s

/-- `re.sub(r"\s+", " ", s)`: collapse every whitespace run to one space.
The flag records whether the scanner stands inside a run already emitted. -/
def collapseWsAux : Bool → Str → Str
  | _, [] => []
  | inRun, c :: t =>
      if isPySpace c then
        (if inRun then collapseWsAux true t else ' ' :: collapseWsAux true t)
      else c :: collapseWsAux false t

/-- `re.sub(r"\s+", " ", s)`. -/
def collapseWs (s : Str) : Str := collapseWsAux false s

/-- `re.sub(r"\b(e|de)\b$", "", s)`: drop a final word `e` or `de` (the
lone match, if any, necessarily ends the string). -/
def dropTrailingEDe : Option Char → Str → Str
  | _, [] => []
  | prev, c :: t =>
      if boundaryBefore prev &&
          ((charIEq c 'e' && decide (t = [])) ||
           (charIEq c 'd' && (match t with
                              | [c2] => charIEq c2 'e'
                              | _ => false))) then []
      else c :: dropTrailingEDe (some c) t

/-- `parser._clean_text`: strip whitespace then `,;`, drop parentheses,
collapse whitespace, drop a trailing `e`/`de` word, strip. -/
def _clean_text (s : Str) : Str :=
  let a := stripAnyOf (str ",;") (stripWs s)
  let b := a.filter (fun c => !(c = '(' || c = ')'))
  let c := collapseWs b
  stripWs (stripWs (dropTrailingEDe none c))

/-- The separator pattern of `parser._split_list`: `\s+e\s+`. -/
def eSepToks : List Tok := [Tok.gap, Tok.ch 'e', Tok.gap]

/-- `re.split(r"\s+e\s+|,", s)`: parts between separator matches, leftmost
first, `\s+e\s+` tried before `,` at each position. -/
def splitECommaAux : Nat → Str → Str → List Str
  | 0, s, acc => [acc.reverse ++ s]
  | _ + 1, [], acc => [acc.reverse]
  | fuel + 1, c :: t, acc =>
      match matchToksSplit eSepToks (c :: t) with
      | some (_, rest) => acc.reverse :: splitECommaAux fuel rest []
      | none =>
          if c = ',' then acc.reverse :: splitECommaAux fuel t []
          else splitECommaAux fuel t (c :: acc)

/-- `parser._split_list`: split on `\s+e\s+` or commas, clean each part,
drop the parts that clean to nothing. -/
def _split_list (s : Str) : List Str :=
  if s = [] then []
  else ((splitECommaAux (s.length + 1) s []).map _clean_text).filter (fun p => p ≠ [])

/-- The lookahead `(?=(\bsem\b|\bcom\b|$))` of the removals pattern, checked
with the character just before the position. -/
def semLookahead (prev : Char) (s : Str) : Bool :=
  decide (s = []) ||
    (boundaryBefore (some prev) &&
      ((kwMatchRest [toks "sem"] s).isSome || (kwMatchRest [toks "com"] s).isSome))

/-- The lazy group `([^,]+?)` of the removals pattern: consume at least one
non-comma character, stopping at the first position where the lookahead
holds; fails on a comma or at the end of the input. -/
def lazyNonComma : Str → Option (Str × Str)
  | [] => none
  | c :: t =>
      if c = ',' then none
      else if semLookahead c t then some ([c], t)
      else
        match lazyNonComma t with
        | some (g, rest) => some (c :: g, rest)
        | none => none

theorem lazyNonComma_spec :
    ∀ (s g rest : Str), lazyNonComma s = some (g, rest) →
      g ++ rest = s ∧ g ≠ [] := by
  intro s
  induction s with
  | nil => intro g rest h; simp [lazyNonComma] at h
  | cons c t ih =>
      intro g rest h
      by_cases hc : c = ','
      · simp [lazyNonComma, hc] at h
      · by_cases hl : semLookahead c t
        · simp only [lazyNonComma, hc, if_false, hl, if_true,
            Option.some.injEq, Prod.mk.injEq] at h
          rw [← h.1, ← h.2]
          exact ⟨rfl, by simp⟩
        · cases hm : lazyNonComma t with
          | none => simp [lazyNonComma, hc, hl, hm] at h
          | some q =>
              obtain ⟨g2, r2⟩ := q
              simp [lazyNonComma, hc, hl, hm] at h
              rw [← h.1, ← h.2]
              have hih := (ih g2 r2 hm).1
              constructor
              · simp [hih]
              · simp

/-- One match of the removals pattern
`\bsem\s+([^,]+?)(?=(\bsem\b|\bcom\b|$))` anchored at this position (the
`\b` before `sem` is the caller's job): returns
(last consumed character, group, rest).  The greedy `\s+` takes the maximal
run; a shorter run would put a space where the group or lookahead needs a
word character, so no backtracking is lost. -/
def semMatchAt (s : Str) : Option (Char × Str × Str) :=
  match matchToksSplit (toks "sem") s with
  | some (_, r1) =>
      if r1.takeWhile isPySpace = [] then none
      else
        match lazyNonComma (r1.dropWhile isPySpace) with
        | some (g, rest) => some (g.getLastD ' ', g, rest)
        | none => none
  | none => none

theorem semMatchAt_rest_lt :
    ∀ (s : Str) (lc : Char) (g rest : Str),
      semMatchAt s = some (lc, g, rest) → rest.length < s.length := by
  intro s lc g rest h
  cases hm : matchToksSplit (toks "sem") s with
  | none => simp [semMatchAt, hm] at h
  | some q =>
      obtain ⟨con1, r1⟩ := q
      by_cases hrun : r1.takeWhile isPySpace = []
      · simp [semMatchAt, hm, hrun] at h
      · cases hl : lazyNonComma (r1.dropWhile isPySpace) with
        | none => simp [semMatchAt, hm, hrun, hl] at h
        | some p =>
            obtain ⟨g2, r2⟩ := p
            simp [semMatchAt, hm, hrun, hl] at h
            have happ := matchToksSplit_append _ _ _ _ hm
            have hcon : con1 ≠ [] :=
              matchToksSplit_consumed_ne_nil _ _ _ _ (by simp [toks]) hm
            have hlazy := lazyNonComma_spec _ _ _ hl
            have h1 : con1.length + r1.length = s.length := by
              rw [← happ]; simp
            have h2 : g2.length + r2.length = (r1.dropWhile isPySpace).length := by
              rw [← hlazy.1]; simp
            have h3 : (r1.dropWhile isPySpace).length ≤ r1.length :=
              (List.dropWhile_sublist isPySpace).length_le
            have h4 : 0 < con1.length := List.length_pos.mpr hcon
            have h5 : 0 < g2.length := List.length_pos.mpr hlazy.2
            have h6 : r2 = rest := h.2.2
            rw [← h6]
            omega

/-- Scanner of `parser._extract_removals`: collect every group of the
removals pattern (in order) and the text with the matched spans removed —
`pattern.finditer` and `pattern.sub("", text)` share the same match spans. -/
def semScanAux : Nat → Option Char → Str → List Str × Str
  | 0, _, s => ([], s)
  | _ + 1, _, [] => ([], [])
  | fuel + 1, prev, c :: t =>
      if boundaryBefore prev then
        match semMatchAt (c :: t) with
        | some (lc, g, rest) =>
            let p := semScanAux fuel (some lc) rest
            (g :: p.1, p.2)
        | none =>
            let p := semScanAux fuel (some c) t
            (p.1, c :: p.2)
      else
        let p := semScanAux fuel (some c) t
        (p.1, c :: p.2)

/-- First word-bounded occurrence of one of the keywords: returns
(text before, matched text, text after), or `none`. -/
def findKwSplit (kws : List (List Tok)) : Option Char → Str → Option (Str × Str × Str)
  | _, [] => none
  | prev, c :: t =>
      if boundaryBefore prev then
        match kwMatchRest kws (c :: t) with
        | some (con, rest) => some ([], con, rest)
        | none =>
            (findKwSplit kws (some c) t).map (fun p => (c :: p.1, p.2.1, p.2.2))
      else (findKwSplit kws (some c) t).map (fun p => (c :: p.1, p.2.1, p.2.2))

/-- `re.sub(r"\s+e\s+", " ", s)` (no word boundaries). -/
def subESepAux : Nat → Str → Str
  | 0, s => s
  | _ + 1, [] => []
  | fuel + 1, c :: t =>
      match matchToksSplit eSepToks (c :: t) with
      | some (_, rest) => ' ' :: subESepAux fuel rest
      | none => c :: subESepAux fuel t

/-! ### `parser.py`: segmenter -/

/-- `parser.ParsedItem` (a plain dataclass; Python `int` quantity as `Int`). -/
structure ParsedItem where
  raw : Str
  quantity : Int
  name : Str
  additions : List Str := []
  removals : List Str := []
  notes : List Str := []
  is_additional_only : Bool := false
  size_hint : Option Str := none
  match_text : Str := []
deriving Repr, DecidableEq

/-- The `_WORD_NUMBERS` alternatives, in pattern order. -/
def wordNumAlts : List (List Tok) :=
  [toks "um", toks "uma", toks "dois", toks "duas", toks "tres", toks "três",
   toks "quatro", toks "cinco", toks "seis", toks "sete", toks "oito",
   toks "nove", toks "dez"]

/-- The `_CUTOFF_RE` alternatives: `para\s+a`, `para\s+o`, `pagamento`,
`entrega`. -/
def cutoffKws : List (List Tok) :=
  [toks "para a", toks "para o", toks "pagamento", toks "entrega"]

/-- The `_CONTEXT_RE` keyword alternatives, in pattern order. -/
def contextKws : List (List Tok) :=
  [toks "rua", toks "bairro", toks "numero", toks "número", toks "prox",
   toks "próx", toks "praça", toks "entrega", toks "entregar", toks "pagamento",
   toks "pix", toks "debito", toks "débito", toks "credito", toks "crédito",
   toks "cartao", toks "cartão", toks "troco", toks "casa", toks "apto",
   toks "apartamento", toks "blz", toks "ok", toks "tudo bem", toks "quantos",
   toks "deu"]

/-- The fixed note keyword list `_NOTE_KEYWORDS`. -/
def _NOTE_KEYWORDS : List Str := [str "cortado ao meio", str "bem passado"]

/-- `parser._cut_context`: pass multi-line text through; otherwise truncate
at the first `_CUTOFF_RE` match and strip. -/
def _cut_context (s : Str) : Str :=
  if s.contains '\n' then s
  else
    match searchKwIdx cutoffKws s with
    | none => s
    | some i => stripWs (s.take i)

/-- Rests after matching each alternative that matches at this position
(no boundary requirement), used where the pattern has no `\b` after the
group and full backtracking over alternatives is needed. -/
def altRests (alts : List (List Tok)) (s : Str) : List Str :=
  alts.filterMap (fun a => matchToks a s)

/-- The greeting alternatives of `_GREETING_RE` other than `oiii+`. -/
def greet1Alts : List (List Tok) :=
  [toks "oi", toks "ola", toks "olá", toks "boa noite", toks "bom dia",
   toks "boa tarde", toks "opa", toks "bia noite"]

/-- The optional second-greeting alternatives of `_GREETING_RE`. -/
def greet2Alts : List (List Tok) :=
  [toks "boa noite", toks "bom dia", toks "boa tarde"]

/-- All rests after `oiii+` (letter `o` then three or more `i`, greedy or
not: every split is a backtracking candidate). -/
def oiiiRests (s : Str) : List Str :=
  match s with
  | c0 :: c1 :: c2 :: t =>
      if charIEq c0 'o' && charIEq c1 'i' && charIEq c2 'i' then iPlusRests t
      else []
  | _ => []
where
  /-- Rests after consuming one or more `i`. -/
  iPlusRests : Str → List Str
    | [] => []
    | c :: t => if charIEq c 'i' then t :: iPlusRests t else []

/-- Is the string all whitespace (`\s*$` at this position)? -/
def allSpaces (s : Str) : Bool := s.all isPySpace

/-- The `(\s+(boa\s+noite|bom\s+dia|boa\s+tarde))?\s*$` tail of
`_GREETING_RE`. -/
def greetingTail (s : Str) : Bool :=
  allSpaces s ||
    (match s with
     | [] => false
     | c :: _ =>
         isPySpace c &&
           (altRests greet2Alts (s.dropWhile isPySpace)).any allSpaces)

/-- `bool(_GREETING_RE.match(s))`: anchored greeting match (the trailing
`\s*$` makes it a full match). -/
def greetingMatch (s : Str) : Bool :=
  let s1 := s.dropWhile isPySpace
  (altRests greet1Alts s1).any greetingTail ||
    (oiiiRests s1).any greetingTail

/-- `parser._is_context_line`: an exact greeting, or any `_CONTEXT_RE`
keyword anywhere in the line. -/
def _is_context_line (s : Str) : Bool :=
  if greetingMatch s then true else containsKw contextKws s

/-- Match `\s+` then the timestamp body after `[`, per `_TIMESTAMP_RE`:
`\d{1,2}:\d{2},\s*\d{2}/\d{2}/\d{4}\]\s+[^:]+:\s*`; returns the rest. -/
def timestampMatch (s : Str) : Option Str :=
  match s with
  | '[' :: t0 =>
      let hh := t0.takeWhile Char.isDigit
      if hh.length = 0 || hh.length > 2 then none
      else
        match t0.drop hh.length with
        | ':' :: t1 =>
            match t1 with
            | m1 :: m2 :: ',' :: t2 =>
                if m1.isDigit && m2.isDigit then
                  let t3 := t2.dropWhile isPySpace
                  match t3 with
                  | d1 :: d2 :: '/' :: d3 :: d4 :: '/' :: y1 :: y2 :: y3 :: y4 :: ']' :: t4 =>
                      if (d1.isDigit && d2.isDigit && d3.isDigit && d4.isDigit &&
                          y1.isDigit && y2.isDigit && y3.isDigit && y4.isDigit) then
                        match t4 with
                        | c :: t5 =>
                            if isPySpace c then
                              let pre := t5.takeWhile (fun d => d ≠ ':')
                              match t5.dropWhile (fun d => d ≠ ':') with
                              | ':' :: r =>
                                  if pre.length ≥ 1 then some (r.dropWhile isPySpace)
                                  else none
                              | _ => none
                            else none
                        | [] => none
                      else none
                  | _ => none
                else none
            | _ => none
        | _ => none
  | _ => none

/-- `_TIMESTAMP_RE.sub("", s)`: the pattern is anchored, so at most the
prefix is removed. -/
def timestampStrip (s : Str) : Str :=
  match timestampMatch s with
  | some rest => rest
  | none => s

/-- First alternative (in order) that matches at the start; returns the rest. -/
def firstAltRest (alts : List (List Tok)) (s : Str) : Option Str :=
  match alts with
  | [] => none
  | a :: more =>
      match matchToks a s with
      | some r => some r
      | none => firstAltRest more s

/-- Greedy `oiii+` at the start: `o` `i` `i` then a maximal run of further
`i` (at least one); returns the rest. -/
def oiiiMax (s : Str) : Option Str :=
  match s with
  | c0 :: c1 :: c2 :: t =>
      if charIEq c0 'o' && charIEq c1 'i' && charIEq c2 'i' then
        if t.takeWhile (fun c => charIEq c 'i') = [] then none
        else some (t.dropWhile (fun c => charIEq c 'i'))
      else none
  | _ => none

/-- The `\s*,?\s*` tail of the greeting prefix patterns, consumed greedily. -/
def commaTail (s : Str) : Str :=
  let r := s.dropWhile isPySpace
  match r with
  | ',' :: r2 => r2.dropWhile isPySpace
  | _ => r

/-- `re.sub(r"^\s*(oiii+|oi|ola|olá|boa\s+noite|bom\s+dia|boa\s+tarde|opa)\s*,?\s*", "", s)`:
alternatives in pattern order, no word boundary after. -/
def greetPre1 (s : Str) : Str :=
  let s1 := s.dropWhile isPySpace
  let matched : Option Str :=
    match oiiiMax s1 with
    | some r => some r
    | none =>
        firstAltRest
          [toks "oi", toks "ola", toks "olá", toks "boa noite", toks "bom dia",
           toks "boa tarde", toks "opa"] s1
  match matched with
  | some r => commaTail r
  | none => s

/-- `re.sub(r"^\s*(boa\s+noite|bom\s+dia|boa\s+tarde)\s*,?\s*", "", s)`. -/
def greetPre2 (s : Str) : Str :=
  let s1 := s.dropWhile isPySpace
  match firstAltRest greet2Alts s1 with
  | some r => commaTail r
  | none => s

/-- `re.sub(r"^\s*eu\s+", "", s)`. -/
def euPre (s : Str) : Str :=
  let s1 := s.dropWhile isPySpace
  match s1 with
  | c0 :: c1 :: t =>
      if charIEq c0 'e' && charIEq c1 'u' then
        if t.takeWhile isPySpace = [] then s else t.dropWhile isPySpace
      else s
  | _ => s

/-- The `_LEADING_VERBS_RE` alternatives, in pattern order. -/
def leadingVerbAlts : List (List Tok) :=
  [toks "gostaria de fazer um pedido", toks "gostaria de fazer",
   toks "gostaria de", toks "gostaria", toks "queria", toks "quero",
   toks "ve", toks "vê", toks "ver", toks "manda", toks "pode", toks "vou",
   toks "vai"]

/-- `_LEADING_VERBS_RE.sub("", s)`: `^\s*(verb...)\b`. -/
def verbsPre (s : Str) : Str :=
  let s1 := s.dropWhile isPySpace
  match kwMatchRest leadingVerbAlts s1 with
  | some (_, rest) => rest
  | none => s

/-- `re.sub(r"^\s*e\s+", "", s)`. -/
def ePre (s : Str) : Str :=
  let s1 := s.dropWhile isPySpace
  match s1 with
  | c :: t =>
      if charIEq c 'e' then
        if t.takeWhile isPySpace = [] then s else t.dropWhile isPySpace
      else s
  | [] => s

/-- `parser._strip_metadata`: timestamp prefix, leading greetings, leading
`eu`, leading softening verbs, leading `e`. -/
def _strip_metadata (s : Str) : Str :=
  let a := stripWs (timestampStrip s)
  let b := greetPre1 a
  let c := greetPre2 b
  let d := euPre c
  let e1 := stripAnyOf (str " ,.-") (verbsPre d)
  stripWs (ePre e1)

/-- The one-character line boundaries of Python `str.splitlines`: `\n`,
`\r`, `\v`, `\f`, the C0 separators `\x1c`..`\x1e`, `\x85`, and the Unicode
line and paragraph separators. -/
def isLineSep (c : Char) : Bool :=
  c = '\n' || c = '\r' || c = Char.ofNat 11 || c = Char.ofNat 12 ||
    c = Char.ofNat 28 || c = Char.ofNat 29 || c = Char.ofNat 30 ||
    c = Char.ofNat 133 || c = Char.ofNat 8232 || c = Char.ofNat 8233

/-- Python `str.splitlines` (a trailing empty part is produced here and
discarded by the caller's emptiness filter). -/
def splitLinesAux : Str → Str → List Str
  | [], acc => [acc.reverse]
  | '\r' :: '\n' :: t, acc => acc.reverse :: splitLinesAux t []
  | c :: t, acc =>
      if isLineSep c then acc.reverse :: splitLinesAux t []
      else splitLinesAux t (c :: acc)

/-- Python `str.splitlines`. -/
def splitLines (s : Str) : List Str := splitLinesAux s []

/-- Backtracking candidates for the separator group
`(?:^|\n+|\s+e\s+|\s*,\s*|\s*;\s*)` of `_ITEM_START_RE` at this position:
the number of characters each matching alternative consumes, in pattern
order. -/
def itemPrefixLens (atStart : Bool) (s : Str) : List Nat :=
  (if atStart then [0] else []) ++
  (let nl := s.takeWhile (fun c => c = '\n')
   if nl = [] then [] else [nl.length]) ++
  (match matchToksSplit eSepToks s with
   | some (con, _) => [con.length]
   | none => []) ++
  (let sp1 := s.takeWhile isPySpace
   match s.dropWhile isPySpace with
   | ',' :: r => [sp1.length + 1 + (r.takeWhile isPySpace).length]
   | _ => []) ++
  (let sp1 := s.takeWhile isPySpace
   match s.dropWhile isPySpace with
   | ';' :: r => [sp1.length + 1 + (r.takeWhile isPySpace).length]
   | _ => [])

/-- The `\s*(?:x\s*)?` tail of `_ITEM_START_RE`: number of characters
consumed after the quantity group. -/
def itemTail (rest : Str) : Nat :=
  let sp := rest.takeWhile isPySpace
  let r2 := rest.dropWhile isPySpace
  match r2 with
  | c :: t => if charIEq c 'x' then sp.length + 1 + (t.takeWhile isPySpace).length
              else sp.length
  | [] => sp.length

/-- One `_ITEM_START_RE` match attempt at this position: returns the offset
of the quantity group (`match.start(1)`) and the offset of the match end. -/
def itemStartMatchAt (atStart : Bool) (s : Str) : Option (Nat × Nat) :=
  (itemPrefixLens atStart s).findSome? (fun plen =>
    let g := s.drop plen
    match kwMatchRest wordNumAlts g with
    | some (con, rest) => some (plen, plen + con.length + itemTail rest)
    | none =>
        let ds := g.takeWhile Char.isDigit
        if ds ≠ [] && boundaryAfterOk (g.drop ds.length) then
          some (plen, plen + ds.length + itemTail (g.drop ds.length))
        else none)

theorem itemStartMatchAt_end_pos :
    ∀ (atStart : Bool) (s : Str) (g e : Nat),
      itemStartMatchAt atStart s = some (g, e) → 0 < e := by
  intro atStart s g e h
  unfold itemStartMatchAt at h
  obtain ⟨plen, _, hf⟩ := List.exists_of_findSome?_eq_some h
  dsimp only at hf
  cases hk : kwMatchRest wordNumAlts (s.drop plen) with
  | some q =>
      obtain ⟨con, r⟩ := q
      rw [hk] at hf
      have hcon := kwMatchRest_consumed_ne_nil _ _ _ _ (by decide) hk
      have hpos : 0 < con.length := List.length_pos.mpr hcon
      simp only [Option.some.injEq, Prod.mk.injEq] at hf
      omega
  | none =>
      rw [hk] at hf
      dsimp only at hf
      split at hf
      · rename_i hcond
        simp only [Bool.and_eq_true, decide_eq_true_eq] at hcond
        have hpos : 0 < (List.takeWhile Char.isDigit (List.drop plen s)).length :=
          List.length_pos.mpr hcond.1
        simp only [Option.some.injEq, Prod.mk.injEq] at hf
        omega
      · exact absurd hf (by simp)

/-- `_ITEM_START_RE.finditer`: scan left to right, resuming after each
match; returns `(match.start(1), match.end())` pairs with absolute indices. -/
def itemStartScan : Nat → Bool → Nat → Str → List (Nat × Nat)
  | 0, _, _, _ => []
  | _ + 1, _, _, [] => []
  | fuel + 1, atStart, i, c :: t =>
      match itemStartMatchAt atStart (c :: t) with
      | some (goff, eoff) =>
          (i + goff, i + eoff) ::
            itemStartScan fuel false (i + eoff) ((c :: t).drop eoff)
      | none => itemStartScan fuel false (i + 1) t

/-- Segment slices between consecutive quantity-group starts (the last one
runs to the end of the line), each stripped of spaces, commas and
semicolons, empties dropped. -/
def segSlices (line : Str) (ms : List (Nat × Nat)) : List Str :=
  match ms with
  | [] => []
  | (g, _) :: rest =>
      let e := match rest with
               | (g2, _) :: _ => g2
               | [] => line.length
      let seg := stripAnyOf (str " ,;") ((line.drop g).take (e - g))
      (if seg = [] then [] else [seg]) ++ segSlices line rest

/-- `parser._split_segments`: per line, strip metadata, drop empty and
context lines, then cut at quantity-token boundaries (or keep the whole
line when no boundary matches). -/
def _split_segments (s : Str) : List Str :=
  let lines := ((splitLines s).map stripWs).filter (fun l => l ≠ [])
  lines.flatMap (fun raw_line =>
    let line := _strip_metadata raw_line
    if line = [] || _is_context_line line then []
    else
      let ms := itemStartScan (line.length + 1) true 0 line
      if ms = [] then
        (let one := stripAnyOf (str " ,;") line
         [one])
      else segSlices line ms)

/-- `_SEGMENT_RE` (`^(\d+)\s*(?:x\s*)?(.*)$`): leading digits, optional `x`,
rest of the segment; returns (digit run, rest). -/
def segmentQtyMatch (s : Str) : Option (Str × Str) :=
  let ds := s.takeWhile Char.isDigit
  if ds = [] then none
  else
    let r := (s.dropWhile Char.isDigit).dropWhile isPySpace
    match r with
    | c :: t => if charIEq c 'x' then some (ds, t) else some (ds, r)
    | [] => some (ds, [])

/-- `_WORD_QTY_RE` (`^(um|uma|...|dez)\b`): first matching word alternative
with a boundary after; returns (matched text, rest). -/
def wordQtyMatch (s : Str) : Option (Str × Str) :=
  kwMatchRest wordNumAlts s

/-- `re.match(rf"^({_WORD_NUMBERS}|\d+)?\s*x\b", s)`: is there an `x`
multiplier marker at the start (after an optional quantity)? -/
def hasXMark (s : Str) : Bool :=
  let tryAfter : Str → Bool := fun r =>
    match r.dropWhile isPySpace with
    | c :: t => charIEq c 'x' && boundaryAfterOk t
    | [] => false
  (altRests wordNumAlts s).any tryAfter ||
    (let ds := s.takeWhile Char.isDigit
     decide (ds ≠ []) && tryAfter (s.drop ds.length)) ||
    tryAfter s

/-- Python `pat in s` for strings: contiguous substring test. -/
def isSubstr (pat : Str) : Str → Bool
  | [] => decide (pat = [])
  | c :: t => (matchLit (fun a b => a = b) pat (c :: t)).isSome || isSubstr pat t

/-- `parser._extract_notes`: for each fixed keyword present in the
normalized text, record it and excise it (case-insensitive) from the raw
text. -/
def _extract_notes (s : Str) : List Str × Str :=
  _NOTE_KEYWORDS.foldl
    (fun acc kw =>
      if isSubstr kw (normalize_text acc.2) then
        (acc.1 ++ [kw], stripWs (replaceCI kw [] acc.2))
      else acc)
    ([], s)

/-- `parser._extract_removals`: collect the `sem ...` clauses, split each on
`e`/commas, and clean the text with the matched spans removed. -/
def _extract_removals (s : Str) : Str × List Str :=
  let p := semScanAux (s.length + 1) none s
  let removals := p.1.flatMap (fun g => _split_list (stripWs g))
  let cleaned0 := p.2
  let cleaned1 := if removals = [] then cleaned0
                  else subESepAux (cleaned0.length + 1) cleaned0
  (_clean_text cleaned1, removals)

/-- `re.split(r"\bcom\b", s, maxsplit=1)` guarded by the same search:
(before, after) of the first word-bounded `com`, if any. -/
def comSplit (s : Str) : Option (Str × Str) :=
  (findKwSplit [toks "com"] none s).map (fun p => (p.1, p.2.2))

/-- `re.match(r"^x\s+", s)`. -/
def xLeadMatch (s : Str) : Bool :=
  match s with
  | c :: d :: _ => charIEq c 'x' && isPySpace d
  | _ => false

/-- `parser._parse_segment`: quantity, multiplier marker, notes,
`adicional`, removals, `com` additions, cleaned base name. -/
def _parse_segment (seg0 : Str) : ParsedItem :=
  let segment := stripWs seg0
  let qd : Int × Str :=
    match segmentQtyMatch segment with
    | some (ds, g2) => ((natOfDigits ds : Int), stripWs g2)
    | none =>
        match wordQtyMatch segment with
        | some (w, rest) => (parse_quantity w, stripWs rest)
        | none => (1, stripWs segment)
  let quantity := qd.1
  let raw := segment
  let has_x := hasXMark segment
  let nd := _extract_notes qd.2
  let addOnly := containsKw [toks "adicional"] (normalize_text nd.2) &&
    !containsKw [toks "x"] raw
  let desc2 := stripWs (subKw [toks "adicional"] [] nd.2)
  let rr := _extract_removals desc2
  let ba : Str × List Str :=
    match comSplit rr.1 with
    | some (l, r) => (l, _split_list r)
    | none => (rr.1, [])
  let base1 := _clean_text ba.1
  let base2 := if has_x && !xLeadMatch base1 then stripWs ('x' :: ' ' :: base1)
               else base1
  { raw := raw
    quantity := quantity
    name := base2
    additions := ba.2
    removals := rr.2
    notes := nd.1
    is_additional_only := addOnly
    size_hint := none
    match_text := base2 }

/-- `parser.parse_order_text`: empty text yields no items; otherwise cut
address/payment context, split into segments, parse each. -/
def parse_order_text (s : Str) : List ParsedItem :=
  if s = [] then []
  else (_split_segments (_cut_context s)).map _parse_segment

/-! ### `resolver.py`: normalizer

In the Python source `_resolve_item` assigns into its argument's fields and
returns the same object.  The shallow embedding passes the state
explicitly: the returned record is the post-call state of the argument. -/

/-- The `1/4` size-hint pattern alternatives, in pattern order. -/
def sizeHint14Kws : List (List Tok) :=
  [toks "1/4", toks "um quarto", toks "porcao pequena", toks "porcao pequena"]

/-- The `1/2` size-hint pattern alternatives, in pattern order. -/
def sizeHint12Kws : List (List Tok) :=
  [toks "1/2", toks "meia porcao", toks "meia porcao", toks "meia"]

/-- `resolver._extract_size_hint`: first pattern that matches wins. -/
def _extract_size_hint (s : Str) : Option Str :=
  if containsKw sizeHint14Kws s then some (str "1/4")
  else if containsKw sizeHint12Kws s then some (str "1/2")
  else none

/-- `re.sub(r"^x(?=[a-z])", "x ", s)`: insert a space after a leading `x`
glued to a letter. -/
def xSpaceFix (s : Str) : Str :=
  match s with
  | c0 :: c :: t =>
      if charIEq c0 'x' &&
          (('a' ≤ c && c ≤ 'z') || ('A' ≤ c && c ≤ 'Z')) then
        'x' :: ' ' :: c :: t
      else s
  | _ => s

/-- The `complet[oa]s?` alternatives in backtracking order (greedy `s?`). -/
def completoAlts : List (List Tok) :=
  [toks "completos", toks "completo", toks "completas", toks "completa"]

/-- The `\bevilha\b` → `ervilha` typo substitution of the resolver. -/
def evilhaFix (s : Str) : Str :=
  subKw [toks "evilha"] (str "ervilha") s

/-- `resolver._dedupe`: drop repeated strings, keeping first occurrences. -/
def dedupeAux : List Str → List Str → List Str
  | _, [] => []
  | seen, x :: t =>
      if seen.contains x then dedupeAux seen t
      else x :: dedupeAux (x :: seen) t

/-- `resolver._dedupe`. -/
def _dedupe (items : List Str) : List Str := dedupeAux [] items

/-- The `(t|itros)?\b` tail of the litros pattern after its `l`, with
alternatives in backtracking order; returns (last consumed character,
rest). -/
def litrosTailAfterL (c : Char) (t : Str) : Option (Char × Str) :=
  match t with
  | c2 :: t2 =>
      if charIEq c2 't' && boundaryAfterOk t2 then some (c2, t2)
      else
        match matchToksSplit (toks "itros") t with
        | some (con, t3) =>
            if boundaryAfterOk t3 then some (con.getLastD c, t3)
            else if boundaryAfterOk t then some (c, t) else none
        | none => if boundaryAfterOk t then some (c, t) else none
  | [] => some (c, [])

/-- One match of `\b(\d+)\s*l(t|itros)?\b` at this position (the leading
`\b` is the scanner's job): returns (digit run, last consumed character,
rest). -/
def litrosMatchAt (s : Str) : Option (Str × Char × Str) :=
  let ds := s.takeWhile Char.isDigit
  if ds = [] then none
  else
    match (s.drop ds.length).dropWhile isPySpace with
    | c :: t =>
        if charIEq c 'l' then (litrosTailAfterL c t).map (fun p => (ds, p.1, p.2))
        else none
    | [] => none

theorem litrosTailAfterL_le :
    ∀ (c : Char) (t : Str) (lc : Char) (rest : Str),
      litrosTailAfterL c t = some (lc, rest) → rest.length ≤ t.length := by
  intro c t lc rest h
  cases t with
  | nil =>
      simp only [litrosTailAfterL, Option.some.injEq, Prod.mk.injEq] at h
      rw [← h.2]
  | cons c2 t2 =>
      by_cases h1 : charIEq c2 't' && boundaryAfterOk t2
      · simp only [litrosTailAfterL, h1, if_true, Option.some.injEq,
          Prod.mk.injEq] at h
        rw [← h.2]
        simp
      · cases hm : matchToksSplit (toks "itros") (c2 :: t2) with
        | some q =>
            obtain ⟨con, t3⟩ := q
            have happ := matchToksSplit_append _ _ _ _ hm
            have hlen : con.length + t3.length = t2.length + 1 := by
              have := congrArg List.length happ
              simpa using this
            by_cases hb : boundaryAfterOk t3
            · simp [litrosTailAfterL, h1, hm, hb] at h
              rw [← h.2]
              simp
              omega
            · by_cases hb2 : boundaryAfterOk (c2 :: t2)
              · simp [litrosTailAfterL, h1, hm, hb, hb2] at h
                rw [← h.2]
              · simp [litrosTailAfterL, h1, hm, hb, hb2] at h
        | none =>
            by_cases hb2 : boundaryAfterOk (c2 :: t2)
            · simp [litrosTailAfterL, h1, hm, hb2] at h
              rw [← h.2]
            · simp [litrosTailAfterL, h1, hm, hb2] at h

theorem litrosMatchAt_rest_lt :
    ∀ (s ds : Str) (lc : Char) (rest : Str),
      litrosMatchAt s = some (ds, lc, rest) → rest.length < s.length := by
  intro s ds lc rest h
  by_cases hds : s.takeWhile Char.isDigit = []
  · simp [litrosMatchAt, hds] at h
  · cases hr : (s.drop (s.takeWhile Char.isDigit).length).dropWhile isPySpace with
    | nil => simp [litrosMatchAt, hds, hr] at h
    | cons c t =>
        by_cases hc : charIEq c 'l'
        · cases hl : litrosTailAfterL c t with
          | none => simp [litrosMatchAt, hds, hr, hc, hl] at h
          | some p =>
              obtain ⟨lc2, r2⟩ := p
              simp only [litrosMatchAt, hds, if_false, hr, hc, if_true, hl,
                Option.map_some', Option.some.injEq, Prod.mk.injEq] at h
              have hle := litrosTailAfterL_le _ _ _ _ hl
              have h2 : (c :: t).length ≤ (s.drop (s.takeWhile Char.isDigit).length).length := by
                rw [← hr]
                exact (List.dropWhile_sublist isPySpace).length_le
              have h3 : 0 < (s.takeWhile Char.isDigit).length :=
                List.length_pos.mpr hds
              have h4 : (s.drop (s.takeWhile Char.isDigit).length).length =
                  s.length - (s.takeWhile Char.isDigit).length := by simp
              have h5 : (s.takeWhile Char.isDigit).length ≤ s.length :=
                (List.takeWhile_sublist Char.isDigit).length_le
              have h6 : r2 = rest := h.2.2
              rw [← h6]
              simp at h2
              omega
        · simp [litrosMatchAt, hds, hr, hc] at h

/-- `re.sub(r"\b(\d+)\s*l(t|itros)?\b", r"\1 litros", s)`. -/
def litrosSubAux : Nat → Option Char → Str → Str
  | 0, _, s => s
  | _ + 1, _, [] => []
  | fuel + 1, prev, c :: t =>
      if boundaryBefore prev then
        match litrosMatchAt (c :: t) with
        | some (ds, lastc, rest) =>
            ds ++ ' ' :: (str "litros" ++ litrosSubAux fuel (some lastc) rest)
        | none => c :: litrosSubAux fuel (some c) t
      else c :: litrosSubAux fuel (some c) t

/-- The litros substitution from the start of the string. -/
def litrosSub (s : Str) : Str := litrosSubAux (s.length + 1) none s

/-- `resolver._compact_spaces`: collapse whitespace runs and strip. -/
def _compact_spaces (s : Str) : Str := stripWs (collapseWs s)

/-- The rewritten base text of `_resolve_item` before the size-hint and
batata-frita steps (the chain of rewrite rules applied to the normalized
`name`, lines 37-67 of `resolver.py`). -/
def resolveBase0 (item : ParsedItem) : Str :=
  let base1 := xSpaceFix (normalize_text item.name)
  let base2 := if isSubstr (str "careca") base1 then
                 stripWs (pyReplace (str "careca") [' '] base1)
               else base1
  let base3 := stripWs (subKw completoAlts [] base2)
  let base4 := subKw [toks "burger"] (str "burguer") base3
  let base5 := subKw [toks "x burg"] (str "x burguer") base4
  let base6 := subKw [toks "migon"] (str "mignon") base5
  let base7 := evilhaFix base6
  let base8 := subKw [toks "tbm"] [] base7
  let base9 := subKw [toks "tambem"] [] base8
  let base10 := if isSubstr (str "coca cola") base9 then base9
                else subKw [toks "coca"] (str "coca cola") base9
  subKw [toks "bata frita"] (str "batata frita") base10

/-- The base text of `_resolve_item` after the batata-frita canonicalization
and the litros rule (lines 74-81 of `resolver.py`). -/
def resolveBase (item : ParsedItem) : Str :=
  let base11 := resolveBase0 item
  let base12 := if isSubstr (str "batata frita") base11 then
                  (if isSubstr (str "tradicional") base11 then
                     str "batata frita tradicional"
                   else str "batata frita")
                else base11
  litrosSub base12

/-- The normalized additions of `_resolve_item` (empties dropped, each
normalized; no de-duplication). -/
def resolveAdditions (item : ParsedItem) : List Str :=
  (item.additions.filter (fun a => a ≠ [])).map normalize_text

/-- The removals list of `_resolve_item` before normalization: the item
removals plus `salada geral` when the base text said `careca`. -/
def resolveRemovals0 (item : ParsedItem) : List Str :=
  if isSubstr (str "careca") (xSpaceFix (normalize_text item.name)) then
    item.removals ++ [str "salada geral"]
  else item.removals

/-- The normalized, de-duplicated removals of `_resolve_item`. -/
def resolveRemovals (item : ParsedItem) : List Str :=
  _dedupe (((resolveRemovals0 item).filter (fun r => r ≠ [])).map
    (fun r => evilhaFix (normalize_text r)))

/-- Does `_resolve_item` merge the additions into the base text (the
batata-frita late rule)? -/
def resolveMerges (item : ParsedItem) : Bool :=
  isSubstr (str "batata frita") (resolveBase item) &&
    !(resolveAdditions item).isEmpty

/-- `resolver._resolve_item`, state-passing form: the result is the state
of the argument after the call (the Python function assigns
`additions`, `removals`, `size_hint` and `match_text` in place and returns
the same object). -/
def _resolve_item (item : ParsedItem) : ParsedItem :=
  let base13 := resolveBase item
  let size_hint1 := match _extract_size_hint (resolveBase0 item) with
                    | some h => some h
                    | none => item.size_hint
  let additions1 := resolveAdditions item
  let base14 := if resolveMerges item then
                  stripWs (base13 ++ ' ' :: joinSpace additions1)
                else base13
  { item with
    additions := if resolveMerges item then [] else additions1
    removals := resolveRemovals item
    size_hint := size_hint1
    match_text := _compact_spaces base14 }

/-- `resolver.resolve_parsed_items`. -/
def resolve_parsed_items (items : List ParsedItem) : List ParsedItem :=
  items.map _resolve_item

/-! ### `schemas.py` records and `matcher.py`

The pydantic models are embedded as plain records, and the checks pydantic
runs when the matcher constructs them are modelled separately:
`cartAdditionValid` and `cartItemValid` state the field bounds
(`ge`/`le` on the quantities, `preco_unitario ≥ 0`, the `observacoes`
length cap), and `match_items_v` threads them through the matcher loop,
returning `none` exactly where the source raises `ValidationError`.  The
remaining bounds hold by construction: `CartPendency.sugestoes` is capped
at 5 and `find_matches` is always called with `limit=5`, and the
`InterpretedOrder.confidence` range `0..1` is proved under C1. -/

/-- `schemas.PendencyReason`. -/
inductive PendencyReason
  | PRODUTO_NAO_ENCONTRADO
  | ADICIONAL_NAO_ENCONTRADO
  | QUANTIDADE_INVALIDA
  | MODIFICACAO_NAO_PERMITIDA
  | AMBIGUIDADE
deriving Repr, DecidableEq

/-- A value of a `dados_extras` entry (string or integer). -/
inductive ExtraVal
  | s (v : Str)
  | i (v : Int)
deriving Repr, DecidableEq

/-- `schemas.CartItemAddition`. -/
structure CartItemAddition where
  pdv : Str
  nome : Str
  quantidade : Int
  preco_unitario : ℚ
deriving Repr, DecidableEq

/-- `schemas.CartItem` (the computed total fields are derived data the
matcher never reads). -/
structure CartItem where
  pdv : Str
  nome : Str
  quantidade : Int
  preco_unitario : ℚ
  adicionais : List CartItemAddition
  observacoes : Str
deriving Repr, DecidableEq

/-- `schemas.CartPendency`. -/
structure CartPendency where
  motivo : PendencyReason
  texto_original : Str
  sugestoes : List Str
  dados_extras : List (Str × ExtraVal)
deriving Repr, DecidableEq

/-- `schemas.InterpretedOrder`. -/
structure InterpretedOrder where
  items : List CartItem
  pendencies : List CartPendency
  raw_text : Str
  confidence : ℚ
deriving Repr, DecidableEq

/-- One row of the menu snapshot (`v_menu_search_index` view), as
`matcher._build_menu_index` reads it. -/
structure MenuEntry where
  pdv : Str
  parent_pdv : Option Str := none
  nome_original : Str
  price : Option ℚ := none
  item_type : Str
  fingerprint : Str
deriving Repr, DecidableEq

/-- The product rows of `matcher._build_menu_index`. -/
def menuProducts (menu : List MenuEntry) : List MenuEntry :=
  menu.filter (fun e => e.item_type = str "product")

/-- The addition rows of a parent product, in menu order
(`additions_by_parent.get(product["pdv"], [])`). -/
def additionsFor (menu : List MenuEntry) (parent : Str) : List MenuEntry :=
  menu.filter (fun e => e.item_type = str "addition" && e.parent_pdv = some parent)

/-- `matcher._to_decimal`: `None` becomes 0. -/
def _to_decimal : Option ℚ → ℚ
  | none => 0
  | some v => v

/-- `matcher._best_match`: fuzzy-pick a product by name at threshold 0.6,
then return the first product bearing the winning name; the source's
`if not match_name` also treats an empty winning name as no match. -/
def _best_match (scorer : Scorer) (query : Str) (products : List MenuEntry) :
    Option MenuEntry :=
  if products.isEmpty then none
  else
    match find_best_match scorer query (products.map (fun p => p.nome_original)) (6/10) with
    | (none, _) => none
    | (some nm, _) =>
        if nm = [] then none else products.find? (fun p => p.nome_original = nm)

/-- `matcher._filter_by_size_hint`: keep products whose normalized name
carries a size token; an emptied filter falls back to all products. -/
def _filter_by_size_hint (products : List MenuEntry) (sh : Str) : List MenuEntry :=
  let tokensL : List Str :=
    if sh = str "1/4" then [str "1/4", str "1/4 por", str "1/4 porcao"]
    else if sh = str "1/2" then [str "meia", str "1/2"]
    else []
  let filtered := products.filter (fun p =>
    tokensL.any (fun tk => isSubstr tk (normalize_text p.nome_original)))
  if filtered.isEmpty then products else filtered

/-- `matcher._filter_plain_batata`: plain fries, excluding topped variants;
an emptied filter falls back to all products. -/
def _filter_plain_batata (products : List MenuEntry) : List MenuEntry :=
  let forbidden := [str "bacon", str "queijo", str "calabresa", str "frango",
    str "cheddar", str "coracao", str "catupiry", str "mussarela", str "tres"]
  let filtered := products.filter (fun p =>
    let nn := normalize_text p.nome_original
    isSubstr (str "batata frita") nn && !(forbidden.any (fun w => isSubstr w nn)))
  if filtered.isEmpty then products else filtered

/-- `matcher._match_product`: exact fingerprint (when unique), then the
category disambiguation blocks in source order, then the plain fuzzy
fallback. -/
def _match_product (scorer : Scorer) (item : ParsedItem)
    (products : List MenuEntry) : Option MenuEntry :=
  let query := if item.match_text = [] then item.name else item.match_text
  let query_fp := make_fingerprint query
  let exact := products.filter (fun p => p.fingerprint = query_fp)
  if exact.length = 1 then exact.head?
  else
    let query_norm := normalize_text query
    let r1 : Option MenuEntry :=
      if isSubstr (str "batata frita") query_norm &&
          (isSubstr (str "bacon") query_norm || isSubstr (str "queijo") query_norm) then
        let required := (if isSubstr (str "bacon") query_norm then [str "bacon"] else []) ++
          (if isSubstr (str "queijo") query_norm then [str "queijo"] else [])
        let filtered := products.filter (fun p =>
          let nn := normalize_text p.nome_original
          isSubstr (str "batata frita") nn && required.all (fun tk => isSubstr tk nn))
        if !filtered.isEmpty then
          let filtered2 := match item.size_hint with
                           | some sh => _filter_by_size_hint filtered sh
                           | none => filtered
          _best_match scorer query filtered2
        else none
      else none
    match r1 with
    | some p => some p
    | none =>
        let r2 : Option MenuEntry :=
          if isSubstr (str "suco") query_norm && isSubstr (str "morango") query_norm then
            let filtered := products.filter (fun p =>
              isSubstr (str "suco") (normalize_text p.nome_original) &&
              isSubstr (str "morango") (normalize_text p.nome_original))
            if !filtered.isEmpty then _best_match scorer query filtered else none
          else none
        match r2 with
        | some p => some p
        | none =>
            let r3 : Option MenuEntry :=
              if isSubstr (str "batata frita") query_norm &&
                  isSubstr (str "tradicional") query_norm then
                let filtered := _filter_plain_batata products
                let filtered2 := match item.size_hint with
                                 | some sh => _filter_by_size_hint filtered sh
                                 | none => filtered
                _best_match scorer query filtered2
              else none
            match r3 with
            | some p => some p
            | none =>
                let r4 : Option MenuEntry :=
                  match item.size_hint with
                  | some sh =>
                      if isSubstr (str "batata frita") query_norm then
                        _best_match scorer query (_filter_by_size_hint products sh)
                      else none
                  | none => none
                match r4 with
                | some p => some p
                | none => _best_match scorer query products

/-- `matcher._addition_label`: normalized addition name with the
`adicionais no prato`/`adicionais` boilerplate removed. -/
def _addition_label (entry : MenuEntry) : Str :=
  stripWs (pyReplace (str "adicionais") []
    (pyReplace (str "adicionais no prato") [] (normalize_text entry.nome_original)))

/-- `matcher._clean_addition_name`: strip the display-case boilerplate. -/
def _clean_addition_name (name : Str) : Str :=
  stripWs (pyReplace (str "Adicionais no Prato ") []
    (pyReplace (str "Adicionais ") [] name))

/-- `matcher._match_addition`: exact fingerprint on the cleaned label,
else fuzzy at threshold 0.6. -/
def _match_addition (scorer : Scorer) (text : Str) (additions : List MenuEntry) :
    Option MenuEntry :=
  if additions.isEmpty then none
  else
    match additions.find?
        (fun e => make_fingerprint (_addition_label e) = make_fingerprint text) with
    | some e => some e
    | none =>
        match find_best_match scorer text (additions.map _addition_label) (6/10) with
        | (none, _) => none
        | (some nm, _) => additions.find? (fun e => _addition_label e = nm)

/-- `matcher._suggest_products`. -/
def _suggest_products (scorer : Scorer) (query : Str) (products : List MenuEntry) :
    List Str :=
  (find_matches scorer query (products.map (fun p => p.nome_original)) (6/10) 5).map
    (fun m => m.1)

/-- `matcher._suggest_additions`. -/
def _suggest_additions (scorer : Scorer) (query : Str) (additions : List MenuEntry) :
    List Str :=
  (find_matches scorer query (additions.map _addition_label) (6/10) 5).map
    (fun m => m.1)

/-- Python `", ".join`. -/
def joinCommaSpace : List Str → Str
  | [] => []
  | [x] => x
  | x :: xs => x ++ ',' :: ' ' :: joinCommaSpace xs

/-- Python `" | ".join`. -/
def joinBar : List Str → Str
  | [] => []
  | [x] => x
  | x :: xs => x ++ ' ' :: '|' :: ' ' :: joinBar xs

/-- `matcher._build_observacoes`. -/
def _build_observacoes (item : ParsedItem) : Str :=
  joinBar
    ((if item.removals ≠ [] then [str "Sem: " ++ joinCommaSpace item.removals] else []) ++
     (if item.notes ≠ [] then [str "Obs: " ++ joinCommaSpace item.notes] else []))

/-- The pendency `matcher._match_additions` records for one unmatched
addition text. -/
def additionPendency (scorer : Scorer) (atext : Str) (additions : List MenuEntry)
    (product : MenuEntry) : CartPendency :=
  { motivo := PendencyReason.ADICIONAL_NAO_ENCONTRADO
    texto_original := atext
    sugestoes := _suggest_additions scorer atext additions
    dados_extras := [(str "produto_base", ExtraVal.s product.nome_original)] }

/-- The cart addition built from a matched menu entry. -/
def cartAdditionOf (m : MenuEntry) : CartItemAddition :=
  { pdv := m.pdv
    nome := _clean_addition_name m.nome_original
    quantidade := 1
    preco_unitario := _to_decimal m.price }

/-- `matcher._match_additions` over the list of addition texts: resolved
cart additions, and one pendency per unmatched text (in input order; the
Python function appends the pendencies to the shared list it is handed, the
embedding returns them). -/
def matchAdditionsList (scorer : Scorer) (adds : List MenuEntry)
    (product : MenuEntry) : List Str → List CartItemAddition × List CartPendency
  | [] => ([], [])
  | atext :: rest =>
      let p := matchAdditionsList scorer adds product rest
      match _match_addition scorer atext adds with
      | none => (p.1, additionPendency scorer atext adds product :: p.2)
      | some m => (cartAdditionOf m :: p.1, p.2)

/-- `matcher._match_additions` on a parsed item. -/
def _match_additions (scorer : Scorer) (item : ParsedItem)
    (adds : List MenuEntry) (product : MenuEntry) :
    List CartItemAddition × List CartPendency :=
  matchAdditionsList scorer adds product item.additions

/-- `matcher._pendency_for_additional_only`. -/
def _pendency_for_additional_only (scorer : Scorer) (item : ParsedItem)
    (products : List MenuEntry) : CartPendency :=
  { motivo := PendencyReason.ADICIONAL_NAO_ENCONTRADO
    texto_original := item.raw
    sugestoes := _suggest_products scorer item.name products
    dados_extras := [(str "quantidade", ExtraVal.i item.quantity),
                     (str "adicional", ExtraVal.s item.name)] }

/-- `matcher._pendency_for_missing_product`. -/
def _pendency_for_missing_product (scorer : Scorer) (item : ParsedItem)
    (products : List MenuEntry) : CartPendency :=
  { motivo := PendencyReason.PRODUTO_NAO_ENCONTRADO
    texto_original := item.raw
    sugestoes := _suggest_products scorer
      (if item.match_text = [] then item.name else item.match_text) products
    dados_extras := [(str "quantidade", ExtraVal.i item.quantity)] }

/-- The cart line `matcher.match_items` builds for a matched product. -/
def cartItemOf (item : ParsedItem) (product : MenuEntry)
    (adicionais : List CartItemAddition) : CartItem :=
  { pdv := product.pdv
    nome := product.nome_original
    quantidade := item.quantity
    preco_unitario := _to_decimal product.price
    adicionais := adicionais
    observacoes := _build_observacoes item }

/-- One iteration of the `match_items` loop: the cart line this item
contributes (if any) and the pendencies it appends. -/
def matchStep (scorer : Scorer) (menu : List MenuEntry) (item : ParsedItem) :
    Option CartItem × List CartPendency :=
  let products := menuProducts menu
  if item.is_additional_only then
    (none, [_pendency_for_additional_only scorer item products])
  else
    match _match_product scorer item products with
    | none => (none, [_pendency_for_missing_product scorer item products])
    | some product =>
        let ap := _match_additions scorer item (additionsFor menu product.pdv) product
        (some (cartItemOf item product ap.1), ap.2)

/-- The `match_items` loop over the items, accumulating cart lines and
pendencies in order. -/
def matchLoop (scorer : Scorer) (menu : List MenuEntry) :
    List ParsedItem → List CartItem × List CartPendency
  | [] => ([], [])
  | item :: rest =>
      let s := matchStep scorer menu item
      let r := matchLoop scorer menu rest
      ((match s.1 with
        | some ci => ci :: r.1
        | none => r.1), s.2 ++ r.2)

/-- `matcher._compute_confidence`: `max(0.1, 1.0 - 0.2 * count)` over the
final pendency list. -/
def _compute_confidence (pendencies : List CartPendency) : ℚ :=
  max (1/10) (1 - (1/5) * pendencies.length)

/-- `matcher.match_items`. -/
def match_items (scorer : Scorer) (items : List ParsedItem)
    (menu : List MenuEntry) (raw_text : Str) : InterpretedOrder :=
  let p := matchLoop scorer menu items
  { items := p.1
    pendencies := p.2
    raw_text := raw_text
    confidence := _compute_confidence p.2 }

/-- The construction-time bounds pydantic checks on
`schemas.CartItemAddition`: `quantidade` in `1..10`, `preco_unitario ≥ 0`. -/
def cartAdditionValid (a : CartItemAddition) : Bool :=
  1 ≤ a.quantidade && a.quantidade ≤ 10 && 0 ≤ a.preco_unitario

/-- The construction-time bounds pydantic checks on `schemas.CartItem`:
`quantidade` in `1..50`, `preco_unitario ≥ 0`, `observacoes` at most 500
characters.  Building a model whose fields violate them raises
`ValidationError` in the source. -/
def cartItemValid (ci : CartItem) : Bool :=
  1 ≤ ci.quantidade && ci.quantidade ≤ 50 && 0 ≤ ci.preco_unitario &&
    ci.observacoes.length ≤ 500

/-- Do all the pydantic models this loop iteration constructs pass their
checks?  (Which single model fails first is observationally irrelevant: the
raised `ValidationError` discards the whole call either way.  Pendency
construction cannot fail, see the section comment.) -/
def matchStepOk (scorer : Scorer) (menu : List MenuEntry) (item : ParsedItem) :
    Bool :=
  match (matchStep scorer menu item).1 with
  | none => true
  | some ci => cartItemValid ci && ci.adicionais.all cartAdditionValid

/-- The `match_items` loop with the pydantic construction checks threaded
through: `none` models the `ValidationError` the source raises while
building one of this iteration's models. -/
def matchLoopV (scorer : Scorer) (menu : List MenuEntry) :
    List ParsedItem → Option (List CartItem × List CartPendency)
  | [] => some ([], [])
  | item :: rest =>
      if matchStepOk scorer menu item then
        match matchLoopV scorer menu rest with
        | none => none
        | some r =>
            let s := matchStep scorer menu item
            some ((match s.1 with
                   | some ci => ci :: r.1
                   | none => r.1), s.2 ++ r.2)
      else none

/-- `matcher.match_items` with the pydantic checks restored: `none` models
the call raising `ValidationError` — nothing (no cart line, no pendency)
reaches the caller then; `some` is the returned order. -/
def match_items_v (scorer : Scorer) (items : List ParsedItem)
    (menu : List MenuEntry) (raw_text : Str) : Option InterpretedOrder :=
  match matchLoopV scorer menu items with
  | none => none
  | some p =>
      some { items := p.1
             pendencies := p.2
             raw_text := raw_text
             confidence := _compute_confidence p.2 }

/-- The full pipeline, as the repository wires it
(`parse_order_text` → `resolve_parsed_items` → `match_items` with
`raw_text` the input text). -/
def interpret_order (scorer : Scorer) (text : Str) (menu : List MenuEntry) :
    InterpretedOrder :=
  match_items scorer (resolve_parsed_items (parse_order_text text)) menu text

/-! ### Shared lemmas about the embedding -/

theorem dedupeAux_not_mem_seen :
    ∀ (l seen : List Str) (x : Str), x ∈ dedupeAux seen l → x ∉ seen := by
  intro l
  induction l with
  | nil => intro seen x h; simp [dedupeAux] at h
  | cons a t ih =>
      intro seen x h
      by_cases hc : seen.contains a
      · rw [dedupeAux, if_pos hc] at h
        exact ih seen x h
      · rw [dedupeAux, if_neg hc] at h
        rcases List.mem_cons.mp h with h1 | h1
        · subst h1
          intro habs
          exact hc (List.elem_eq_true_of_mem habs)
        · intro habs
          exact ih (a :: seen) x h1 (List.mem_cons_of_mem _ habs)

theorem dedupeAux_nodup : ∀ (l seen : List Str), (dedupeAux seen l).Nodup := by
  intro l
  induction l with
  | nil => intro seen; simp [dedupeAux]
  | cons a t ih =>
      intro seen
      by_cases hc : seen.contains a
      · rw [dedupeAux, if_pos hc]
        exact ih seen
      · rw [dedupeAux, if_neg hc]
        rw [List.nodup_cons]
        refine ⟨fun habs => ?_, ih (a :: seen)⟩
        exact dedupeAux_not_mem_seen t (a :: seen) a habs (List.mem_cons_self _ _)

theorem dedupeAux_sublist : ∀ (l seen : List Str), (dedupeAux seen l).Sublist l := by
  intro l
  induction l with
  | nil => intro seen; simp [dedupeAux]
  | cons a t ih =>
      intro seen
      by_cases hc : seen.contains a
      · rw [dedupeAux, if_pos hc]
        exact (ih seen).cons a
      · rw [dedupeAux, if_neg hc]
        exact (ih (a :: seen)).cons₂ a

theorem dedupeAux_mem :
    ∀ (l seen : List Str) (x : Str),
      x ∈ dedupeAux seen l ↔ (x ∈ l ∧ x ∉ seen) := by
  intro l
  induction l with
  | nil => intro seen x; simp [dedupeAux]
  | cons a t ih =>
      intro seen x
      by_cases hc : seen.contains a
      · have ha : a ∈ seen := List.mem_of_elem_eq_true hc
        rw [dedupeAux, if_pos hc, ih]
        simp only [List.mem_cons]
        constructor
        · rintro ⟨h1, h2⟩
          exact ⟨Or.inr h1, h2⟩
        · rintro ⟨h1 | h1, h2⟩
          · subst h1; exact absurd ha h2
          · exact ⟨h1, h2⟩
      · have ha : a ∉ seen := fun habs => hc (List.elem_eq_true_of_mem habs)
        rw [dedupeAux, if_neg hc]
        simp only [List.mem_cons, ih]
        constructor
        · rintro (h | ⟨h1, h2⟩)
          · subst h; exact ⟨Or.inl rfl, ha⟩
          · refine ⟨Or.inr h1, fun habs => h2 (Or.inr habs)⟩
        · rintro ⟨h1 | h1, h2⟩
          · subst h1; exact Or.inl rfl
          · by_cases hax : x = a
            · subst hax; exact Or.inl rfl
            · refine Or.inr ⟨h1, fun habs => ?_⟩
              rcases habs with hx | hx
              · exact hax hx
              · exact h2 hx

/-! ### Claims -/

/-- C1: for every item list and menu snapshot, the confidence of the
`InterpretedOrder` the Matcher returns equals
`max(0.1, 1.0 - 0.2 × pendency_count)` where `pendency_count` is the number
of pendencies in the result; it always lies in `[0.1, 1.0]`, and the
formula is non-increasing in the pendency count (it depends on the count
only, not on which pendency reasons occurred). -/
theorem c1_confidence_formula (scorer : Scorer) (items : List ParsedItem)
    (menu : List MenuEntry) (raw : Str) :
    (match_items scorer items menu raw).confidence =
      max (1/10)
        (1 - (1/5) * ((match_items scorer items menu raw).pendencies.length : ℚ)) ∧
    (1/10 : ℚ) ≤ (match_items scorer items menu raw).confidence ∧
    (match_items scorer items menu raw).confidence ≤ 1 ∧
    ∀ l1 l2 : List CartPendency, l1.length ≤ l2.length →
      _compute_confidence l2 ≤ _compute_confidence l1 := by
  refine ⟨rfl, le_max_left _ _, ?_, ?_⟩
  · apply max_le
    · norm_num
    · have h0 : (0 : ℚ) ≤ (1/5) *
          ((match_items scorer items menu raw).pendencies.length : ℚ) := by
        positivity
      linarith
  · intro l1 l2 h
    apply max_le_max (le_refl _)
    have : ((l1.length : ℚ)) ≤ (l2.length : ℚ) := by exact_mod_cast h
    nlinarith

/-- C8: on the empty input string the full pipeline returns an
`InterpretedOrder` with no cart lines, no pendencies and confidence exactly
1, for every menu snapshot and scorer. -/
theorem c8_empty_input (scorer : Scorer) (menu : List MenuEntry) :
    interpret_order scorer [] menu =
      { items := [], pendencies := [], raw_text := [], confidence := 1 } := by
  have h : _compute_confidence [] = 1 := by
    unfold _compute_confidence
    norm_num
  unfold interpret_order parse_order_text resolve_parsed_items match_items matchLoop
  simp [h, _compute_confidence]
  norm_num

/-- C10: the Segmenter's address/payment cutoff (`_cut_context`) passes any
text containing a newline through unchanged; whenever it changes the text,
the input had no newline and the result is the text truncated at the first
cutoff-marker match and stripped. -/
theorem c10_newline_suppresses_cutoff (s : Str) :
    ('\n' ∈ s → _cut_context s = s) ∧
    (_cut_context s ≠ s →
      '\n' ∉ s ∧
      ∃ i, searchKwIdx cutoffKws s = some i ∧ _cut_context s = stripWs (s.take i)) := by
  constructor
  · intro h
    have hc : s.contains '\n' = true := List.elem_eq_true_of_mem h
    unfold _cut_context
    rw [if_pos hc]
  · intro hne
    by_cases hc : s.contains '\n'
    · exact absurd (by unfold _cut_context; rw [if_pos hc]) hne
    · have hmem : '\n' ∉ s := fun habs => hc (List.elem_eq_true_of_mem habs)
      refine ⟨hmem, ?_⟩
      cases hidx : searchKwIdx cutoffKws s with
      | none => exact absurd (by unfold _cut_context; rw [if_neg hc, hidx]) hne
      | some i => exact ⟨i, rfl, by unfold _cut_context; rw [if_neg hc, hidx]⟩

/-- C10 witness: a concrete text with a newline and a cutoff marker is
passed through unchanged. -/
theorem c10_witness :
    _cut_context (str "1 pizza\npagamento em pix") = str "1 pizza\npagamento em pix" :=
  (c10_newline_suppresses_cutoff (str "1 pizza\npagamento em pix")).1 (by decide)

set_option maxHeartbeats 2000000 in
/-- C6 counterexample: the Normalizer does not leave its input unchanged —
`_resolve_item` reassigns `match_text` (among other fields) on the item it
was handed and returns that same item, so a `ParsedItem` named `Coca` has
its `match_text` rewritten to `coca cola` in place. -/
theorem c6_counterexample :
    (_resolve_item
      { raw := str "1 coca", quantity := 1, name := str "Coca",
        match_text := str "Coca" }).match_text ≠ str "Coca" := by decide

/-- C6 amended: `_resolve_item` updates its argument in place and returns
it; the fields `raw`, `name`, `quantity`, `notes` and the additive-only
flag are preserved, while `additions`, `removals`, `size_hint` and
`match_text` are reassigned (so the input is mutated, not copied). -/
theorem c6_resolver_updates_in_place (item : ParsedItem) :
    (_resolve_item item).raw = item.raw ∧
    (_resolve_item item).name = item.name ∧
    (_resolve_item item).quantity = item.quantity ∧
    (_resolve_item item).notes = item.notes ∧
    (_resolve_item item).is_additional_only = item.is_additional_only := by
  unfold _resolve_item
  exact ⟨rfl, rfl, rfl, rfl, rfl⟩

set_option maxHeartbeats 2000000 in
/-- C7 counterexample: additions are not de-duplicated — a line with the
addition text `bacon` twice keeps both copies after normalization. -/
theorem c7_counterexample :
    (_resolve_item
      { raw := str "1 pizza", quantity := 1, name := str "pizza",
        additions := [str "bacon", str "bacon"] }).additions =
        [str "bacon", str "bacon"] ∧
    ¬ ((_resolve_item
      { raw := str "1 pizza", quantity := 1, name := str "pizza",
        additions := [str "bacon", str "bacon"] }).additions).Nodup := by
  constructor
  · decide
  · decide

/-- C7 amended: the Normalizer normalizes each removal with the
diacritic/case/space rules plus the `evilha` typo fix and de-duplicates the
removals preserving first-seen order, so the resulting removals list has no
duplicates; the additions are each normalized with empties dropped but are
NOT de-duplicated (and the batata-frita merge may move them into the name,
leaving the list empty). -/
theorem c7_modifier_lists (item : ParsedItem) :
    ((_resolve_item item).removals).Nodup ∧
    (∃ source : List Str,
      (∀ r ∈ source, ∃ r0, r0 ≠ [] ∧
        (r0 ∈ item.removals ∨ r0 = str "salada geral") ∧
        r = evilhaFix (normalize_text r0)) ∧
      ((_resolve_item item).removals).Sublist source ∧
      (∀ x, x ∈ (_resolve_item item).removals ↔ x ∈ source)) ∧
    ((_resolve_item item).additions = [] ∨
      (_resolve_item item).additions =
        (item.additions.filter (fun a => a ≠ [])).map normalize_text) := by
  refine ⟨dedupeAux_nodup _ _, ?_, ?_⟩
  · refine ⟨((resolveRemovals0 item).filter (fun r => r ≠ [])).map
      (fun r => evilhaFix (normalize_text r)), ?_, ?_, ?_⟩
    · intro r hr
      rcases List.mem_map.mp hr with ⟨r0, hr0, hr0e⟩
      rcases List.mem_filter.mp hr0 with ⟨hr0m, hr0ne⟩
      refine ⟨r0, by simpa using hr0ne, ?_, hr0e.symm⟩
      unfold resolveRemovals0 at hr0m
      by_cases hcar : isSubstr (str "careca") (xSpaceFix (normalize_text item.name))
      · rw [if_pos hcar] at hr0m
        rcases List.mem_append.mp hr0m with h | h
        · exact Or.inl h
        · simp at h
          exact Or.inr h
      · rw [if_neg hcar] at hr0m
        exact Or.inl hr0m
    · exact dedupeAux_sublist _ _
    · intro x
      show x ∈ _dedupe _ ↔ _
      unfold _dedupe
      rw [dedupeAux_mem]
      simp
  · by_cases hmerge : resolveMerges item
    · exact Or.inl (by simp [_resolve_item, hmerge])
    · exact Or.inr (by simp [_resolve_item, hmerge, resolveAdditions])

/-- The character preceding the suffix position reached after consuming
`pre`, starting from preceding character `prev`. -/
def prevCharOf (prev : Option Char) (pre : Str) : Option Char :=
  match pre.getLast? with
  | some c => some c
  | none => prev

theorem searchKwAux_iff (kws : List (List Tok)) :
    ∀ (s : Str) (prev : Option Char),
      searchKwAux kws prev s = true ↔
        ∃ pre suf, pre ++ suf = s ∧
          boundaryBefore (prevCharOf prev pre) = true ∧
          (kwMatchRest kws suf).isSome = true := by
  intro s
  induction s with
  | nil =>
      intro prev
      rw [searchKwAux]
      constructor
      · intro h
        simp only [Bool.and_eq_true] at h
        exact ⟨[], [], rfl, h.1, h.2⟩
      · rintro ⟨pre, suf, happ, hb, hk⟩
        rcases List.append_eq_nil.mp happ with ⟨hpre, hsuf⟩
        subst hpre; subst hsuf
        simp only [Bool.and_eq_true]
        exact ⟨hb, hk⟩
  | cons c t ih =>
      intro prev
      rw [searchKwAux]
      rw [Bool.or_eq_true]
      constructor
      · intro h
        rcases h with h | h
        · simp only [Bool.and_eq_true] at h
          exact ⟨[], c :: t, rfl, h.1, h.2⟩
        · rcases (ih (some c)).mp h with ⟨pre, suf, happ, hb, hk⟩
          refine ⟨c :: pre, suf, by rw [← happ]; rfl, ?_, hk⟩
          cases pre with
          | nil =>
              simpa [prevCharOf] using hb
          | cons d q =>
              have hgl : (c :: d :: q).getLast? = (d :: q).getLast? :=
                List.getLast?_cons_cons
              simpa [prevCharOf, hgl] using hb
      · rintro ⟨pre, suf, happ, hb, hk⟩
        cases pre with
        | nil =>
            left
            cases happ
            simp only [Bool.and_eq_true]
            exact ⟨by simpa [prevCharOf] using hb, hk⟩
        | cons d q =>
            right
            have hd : d = c := by
              have := congrArg (fun l => List.head? l) happ
              simpa using this
            subst hd
            have hq : q ++ suf = t := by
              have := congrArg (fun l => List.tail l) happ
              simpa using this
            refine (ih (some d)).mpr ⟨q, suf, hq, ?_, hk⟩
            cases q with
            | nil => simpa [prevCharOf] using hb
            | cons e r =>
                have hgl : (d :: e :: r).getLast? = (e :: r).getLast? :=
                  List.getLast?_cons_cons
                simpa [prevCharOf, hgl] using hb

theorem containsKw_iff (kws : List (List Tok)) (s : Str) :
    containsKw kws s = true ↔
      ∃ pre suf, pre ++ suf = s ∧ boundaryBefore pre.getLast? = true ∧
        (kwMatchRest kws suf).isSome = true := by
  rw [containsKw, searchKwAux_iff]
  constructor
  · rintro ⟨pre, suf, happ, hb, hk⟩
    refine ⟨pre, suf, happ, ?_, hk⟩
    cases hl : pre.getLast? with
    | none => simpa [prevCharOf, hl] using hb
    | some d => simpa [prevCharOf, hl] using hb
  · rintro ⟨pre, suf, happ, hb, hk⟩
    refine ⟨pre, suf, happ, ?_, hk⟩
    cases hl : pre.getLast? with
    | none => simpa [prevCharOf, hl] using hb
    | some d => simpa [prevCharOf, hl] using hb

/-- C4 counterexample: the line `2 coca rua azul` carries a leading digit
quantity token (the segmenter's own `_ITEM_START_RE` finds a boundary in
it) and a strong address keyword (`rua`), is no greeting, and yet
`_is_context_line` classifies it as discardable context — the Segmenter's
classifier never consults quantity markers, contradicting the claimed
"and contains no quantity marker" clause. -/
theorem c4_counterexample :
    _is_context_line (str "2 coca rua azul") = true ∧
    greetingMatch (str "2 coca rua azul") = false ∧
    containsKw contextKws (str "2 coca rua azul") = true ∧
    itemStartScan ((str "2 coca rua azul").length + 1) true 0
      (str "2 coca rua azul") ≠ [] :=
  ⟨by decide, by decide, by decide, by decide⟩

/-- C4 amended: a surviving line is classified as discardable context if
and only if it matches the greeting pattern, or some strong address/payment
keyword occurs word-bounded anywhere in it — regardless of any quantity
marker in the line. -/
theorem c4_context_classification (s : Str) :
    _is_context_line s = true ↔
      (greetingMatch s = true ∨
        ∃ pre suf, pre ++ suf = s ∧ boundaryBefore pre.getLast? = true ∧
          (kwMatchRest contextKws suf).isSome = true) := by
  unfold _is_context_line
  by_cases hg : greetingMatch s
  · simp [hg]
  · rw [if_neg hg, containsKw_iff]
    simp [hg]

theorem matchAdditionsList_spec (scorer : Scorer) (adds : List MenuEntry)
    (product : MenuEntry) :
    ∀ texts : List Str,
      matchAdditionsList scorer adds product texts =
        ((texts.filterMap (fun a => _match_addition scorer a adds)).map
            cartAdditionOf,
         (texts.filter (fun a => (_match_addition scorer a adds).isNone)).map
            (fun a => additionPendency scorer a adds product)) := by
  intro texts
  induction texts with
  | nil => rfl
  | cons a t ih =>
      rw [matchAdditionsList]
      cases hm : _match_addition scorer a adds with
      | none => simp [hm, ih]
      | some m => simp [hm, ih]

theorem matchLoop_append (scorer : Scorer) (menu : List MenuEntry) :
    ∀ xs ys : List ParsedItem,
      matchLoop scorer menu (xs ++ ys) =
        ((matchLoop scorer menu xs).1 ++ (matchLoop scorer menu ys).1,
         (matchLoop scorer menu xs).2 ++ (matchLoop scorer menu ys).2) := by
  intro xs ys
  induction xs with
  | nil => simp [matchLoop]
  | cons x xs ih =>
      rw [List.cons_append, matchLoop, matchLoop, ih]
      cases (matchStep scorer menu x).1 <;> simp

theorem matchLoopV_eq (scorer : Scorer) (menu : List MenuEntry) :
    ∀ (items : List ParsedItem) (p : List CartItem × List CartPendency),
      matchLoopV scorer menu items = some p → matchLoop scorer menu items = p := by
  intro items
  induction items with
  | nil =>
      intro p h
      simp only [matchLoopV, Option.some.injEq] at h
      rw [matchLoop, ← h]
  | cons x xs ih =>
      intro p h
      simp only [matchLoopV] at h
      by_cases hok : matchStepOk scorer menu x
      · rw [if_pos hok] at h
        cases hr : matchLoopV scorer menu xs with
        | none => rw [hr] at h; cases h
        | some r =>
            rw [hr] at h
            simp only [Option.some.injEq] at h
            rw [matchLoop, ih r hr]
            exact h
      · rw [if_neg hok] at h
        cases h

theorem matchLoopV_none (scorer : Scorer) (menu : List MenuEntry)
    (item : ParsedItem) (hbad : matchStepOk scorer menu item = false) :
    ∀ pre post : List ParsedItem,
      matchLoopV scorer menu (pre ++ item :: post) = none := by
  intro pre
  induction pre with
  | nil =>
      intro post
      rw [List.nil_append]
      simp only [matchLoopV, hbad, Bool.false_eq_true, if_false]
  | cons q pre ih =>
      intro post
      rw [List.cons_append]
      simp only [matchLoopV]
      by_cases hok : matchStepOk scorer menu q
      · rw [if_pos hok, ih post]
      · rw [if_neg hok]

/-- C2 (amended): for a line whose base product resolves (and which is not
additive-only), whenever `match_items` returns at all it still emits the
line's cart line — with exactly the resolved additions attached — plus one
separate `addition_not_found` pendency per unresolved addition, the lines
before and after processed unchanged; but the pydantic bound
`1 ≤ quantidade ≤ 50` on `CartItem` makes the same call raise
`ValidationError` — returning nothing, hence no cart line and no
pendencies — when the matched line's quantity is 0 or above 50. -/
theorem c2_partial_pendency (scorer : Scorer) (menu : List MenuEntry) (raw : Str)
    (pre post : List ParsedItem) (item : ParsedItem) (p : MenuEntry)
    (hadd : item.is_additional_only = false)
    (hmatch : _match_product scorer item (menuProducts menu) = some p) :
    (∀ r, match_items_v scorer (pre ++ item :: post) menu raw = some r →
      r.items =
        (match_items scorer pre menu raw).items ++
          cartItemOf item p
            ((item.additions.filterMap
              (fun a => _match_addition scorer a (additionsFor menu p.pdv))).map
              cartAdditionOf) ::
          (match_items scorer post menu raw).items ∧
      r.pendencies =
        (match_items scorer pre menu raw).pendencies ++
          ((item.additions.filter
            (fun a => (_match_addition scorer a (additionsFor menu p.pdv)).isNone)).map
            (fun a => additionPendency scorer a (additionsFor menu p.pdv) p) ++
          (match_items scorer post menu raw).pendencies)) ∧
    (∀ pd ∈ (item.additions.filter
          (fun a => (_match_addition scorer a (additionsFor menu p.pdv)).isNone)).map
          (fun a => additionPendency scorer a (additionsFor menu p.pdv) p),
      pd.motivo = PendencyReason.ADICIONAL_NAO_ENCONTRADO) ∧
    ((item.quantity < 1 ∨ 50 < item.quantity) →
      match_items_v scorer (pre ++ item :: post) menu raw = none) := by
  have hstep : matchStep scorer menu item =
      (some (cartItemOf item p
        ((item.additions.filterMap
          (fun a => _match_addition scorer a (additionsFor menu p.pdv))).map
          cartAdditionOf)),
       (item.additions.filter
          (fun a => (_match_addition scorer a (additionsFor menu p.pdv)).isNone)).map
          (fun a => additionPendency scorer a (additionsFor menu p.pdv) p)) := by
    simp only [matchStep, hadd, Bool.false_eq_true, if_false, hmatch,
      _match_additions, matchAdditionsList_spec]
  have hloop : matchLoop scorer menu (pre ++ item :: post) =
      ((matchLoop scorer menu pre).1 ++
        cartItemOf item p
          ((item.additions.filterMap
            (fun a => _match_addition scorer a (additionsFor menu p.pdv))).map
            cartAdditionOf) :: (matchLoop scorer menu post).1,
       (matchLoop scorer menu pre).2 ++
        ((item.additions.filter
          (fun a => (_match_addition scorer a (additionsFor menu p.pdv)).isNone)).map
          (fun a => additionPendency scorer a (additionsFor menu p.pdv) p) ++
        (matchLoop scorer menu post).2)) := by
    rw [matchLoop_append scorer menu pre (item :: post)]
    rw [matchLoop, hstep]
  refine ⟨?_, ?_, ?_⟩
  · intro r hr
    unfold match_items_v at hr
    cases hl : matchLoopV scorer menu (pre ++ item :: post) with
    | none => rw [hl] at hr; cases hr
    | some q =>
        rw [hl] at hr
        simp only [Option.some.injEq] at hr
        have hq : matchLoop scorer menu (pre ++ item :: post) = q :=
          matchLoopV_eq scorer menu _ q hl
        rw [hloop] at hq
        constructor
        · rw [← hr]
          show q.1 = _
          rw [← hq]
          rfl
        · rw [← hr]
          show q.2 = _
          rw [← hq]
          rfl
  · intro pd hpd
    rcases List.mem_map.mp hpd with ⟨a, _, hae⟩
    rw [← hae]
    rfl
  · intro hq
    have hcv : cartItemValid (cartItemOf item p
        ((item.additions.filterMap
          (fun a => _match_addition scorer a (additionsFor menu p.pdv))).map
          cartAdditionOf)) = false := by
      simp only [cartItemValid, cartItemOf]
      rcases hq with h | h
      · have h1 : decide (1 ≤ item.quantity) = false :=
          decide_eq_false_iff_not.mpr (by omega)
        simp [h1]
      · have h1 : decide (item.quantity ≤ 50) = false :=
          decide_eq_false_iff_not.mpr (by omega)
        simp [h1]
    have hbad : matchStepOk scorer menu item = false := by
      simp only [matchStepOk, hstep]
      rw [hcv, Bool.false_and]
    unfold match_items_v
    rw [matchLoopV_none scorer menu item hbad pre post]

/-- The concrete scorer used by the witnesses (score 0 everywhere: every
resolution in the witnesses happens through exact fingerprints). -/
def wScorer : Scorer := fun _ _ => 0

/-- A concrete two-row menu snapshot: one product and one addition. -/
def wMenu : List MenuEntry :=
  [ { pdv := str "P1", nome_original := str "X Galinha",
      item_type := str "product", fingerprint := str "xgalinha",
      price := some 30 },
    { pdv := str "A1", parent_pdv := some (str "P1"),
      nome_original := str "Adicionais Bacon",
      item_type := str "addition", fingerprint := str "adicionaisbacon",
      price := some 5 } ]

/-- The product row of `wMenu`. -/
def wProduct : MenuEntry :=
  { pdv := str "P1", nome_original := str "X Galinha",
    item_type := str "product", fingerprint := str "xgalinha",
    price := some 30 }

/-- A concrete resolved line: base `x galinha`, additions `bacon` (which
resolves against `wMenu`) and `zzz` (which does not). -/
def wItem : ParsedItem :=
  { raw := str "1 x galinha com bacon e zzz", quantity := 1,
    name := str "x galinha",
    additions := [str "bacon", str "zzz"],
    match_text := str "x galinha" }

/-- A concrete resolved line whose single addition `bacon` resolves by
exact fingerprint against `wMenu`. -/
def wItem1 : ParsedItem :=
  { raw := str "1 x galinha com bacon", quantity := 1,
    name := str "x galinha",
    additions := [str "bacon"],
    match_text := str "x galinha" }

/-- A concrete matched line carrying the explicit quantity 0 (the quantity
the segmenter emits for its raw text). -/
def wItemZ : ParsedItem :=
  { raw := str "0 x galinha com zzz", quantity := 0,
    name := str "x galinha",
    additions := [str "zzz"],
    match_text := str "x galinha" }

/-- C2 counterexample: a line with the explicit quantity 0 — exactly what
the segmenter produces for this raw text — whose base product resolves
still yields no cart line at all: the pydantic bound on `quantidade` makes
`match_items` raise `ValidationError`, so the call returns nothing,
refuting the unconditional `still emits a CartLine`. -/
theorem c2_counterexample :
    (parse_order_text wItemZ.raw).map (fun it => it.quantity) = [0] ∧
    wItemZ.is_additional_only = false ∧
    (_match_product wScorer wItemZ (menuProducts wMenu)).isSome = true ∧
    match_items_v wScorer [wItemZ] wMenu wItemZ.raw = none := by
  refine ⟨by decide, rfl, by decide, by decide⟩

/-- C2 witness: the concrete in-bounds line (quantity 1, additions `bacon`
resolved and `zzz` unresolved) satisfies both hypotheses, and the
conclusions instantiate to it; the validated matcher does return a result
on a well-formed matched line (`wItem1`). -/
theorem c2_witness :
    (match_items_v wScorer [wItem1] wMenu (str "")).isSome = true ∧
    wItem.is_additional_only = false ∧
    _match_product wScorer wItem (menuProducts wMenu) = some wProduct ∧
    (∀ r, match_items_v wScorer ([] ++ wItem :: []) wMenu wItem.raw = some r →
      r.items =
        (match_items wScorer [] wMenu wItem.raw).items ++
          cartItemOf wItem wProduct
            ((wItem.additions.filterMap
              (fun a => _match_addition wScorer a (additionsFor wMenu wProduct.pdv))).map
              cartAdditionOf) ::
          (match_items wScorer [] wMenu wItem.raw).items ∧
      r.pendencies =
        (match_items wScorer [] wMenu wItem.raw).pendencies ++
          ((wItem.additions.filter
            (fun a => (_match_addition wScorer a (additionsFor wMenu wProduct.pdv)).isNone)).map
            (fun a => additionPendency wScorer a (additionsFor wMenu wProduct.pdv) wProduct) ++
          (match_items wScorer [] wMenu wItem.raw).pendencies)) ∧
    ((wItem.quantity < 1 ∨ 50 < wItem.quantity) →
      match_items_v wScorer ([] ++ wItem :: []) wMenu wItem.raw = none) :=
  ⟨by decide, by decide, by decide,
   (c2_partial_pendency wScorer wMenu wItem.raw [] [] wItem wProduct
      (by decide) (by decide)).1,
   (c2_partial_pendency wScorer wMenu wItem.raw [] [] wItem wProduct
      (by decide) (by decide)).2.2⟩

theorem matchLoop_items_of_mem (scorer : Scorer) (menu : List MenuEntry) :
    ∀ (items : List ParsedItem) (ci : CartItem),
      ci ∈ (matchLoop scorer menu items).1 →
      ∃ it ∈ items, (matchStep scorer menu it).1 = some ci := by
  intro items
  induction items with
  | nil => intro ci h; simp [matchLoop] at h
  | cons x xs ih =>
      intro ci h
      rw [matchLoop] at h
      cases hs : (matchStep scorer menu x).1 with
      | none =>
          rw [hs] at h
          rcases ih ci h with ⟨it, hmem, hst⟩
          exact ⟨it, List.mem_cons_of_mem _ hmem, hst⟩
      | some c0 =>
          rw [hs] at h
          rcases List.mem_cons.mp h with h1 | h1
          · exact ⟨x, List.mem_cons_self _ _, by rw [hs, h1]⟩
          · rcases ih ci h1 with ⟨it, hmem, hst⟩
            exact ⟨it, List.mem_cons_of_mem _ hmem, hst⟩

theorem _match_addition_mem (scorer : Scorer) (text : Str)
    (adds : List MenuEntry) (m : MenuEntry)
    (h : _match_addition scorer text adds = some m) : m ∈ adds := by
  unfold _match_addition at h
  by_cases he : adds.isEmpty
  · rw [if_pos he] at h
    cases h
  · rw [if_neg he] at h
    cases hf : adds.find?
        (fun e => make_fingerprint (_addition_label e) = make_fingerprint text) with
    | some e =>
        rw [hf] at h
        cases h
        exact List.mem_of_find?_eq_some hf
    | none =>
        rw [hf] at h
        cases hb : find_best_match scorer text (adds.map _addition_label) (6/10) with
        | mk o sc =>
            rw [hb] at h
            cases o with
            | none => cases h
            | some nm =>
                exact List.mem_of_find?_eq_some h

/-- C9: every addition attached to a cart line by the Matcher has quantity
exactly 1, and its pdv, name and unit price come from a menu addition row
(the name after boilerplate cleaning, a missing price as 0) — no quantity
wording from the customer's text reaches the addition. -/
theorem c9_addition_quantity (scorer : Scorer) (items : List ParsedItem)
    (menu : List MenuEntry) (raw : Str) (ci : CartItem) (a : CartItemAddition)
    (hci : ci ∈ (match_items scorer items menu raw).items)
    (ha : a ∈ ci.adicionais) :
    a.quantidade = 1 ∧
    ∃ m ∈ menu, m.item_type = str "addition" ∧ a.pdv = m.pdv ∧
      a.nome = _clean_addition_name m.nome_original ∧
      a.preco_unitario = _to_decimal m.price := by
  rcases matchLoop_items_of_mem scorer menu items ci hci with ⟨it, _, hstep⟩
  unfold matchStep at hstep
  by_cases hao : it.is_additional_only
  · rw [if_pos hao] at hstep
    cases hstep
  · rw [if_neg hao] at hstep
    cases hp : _match_product scorer it (menuProducts menu) with
    | none =>
        rw [hp] at hstep
        cases hstep
    | some product =>
        rw [hp] at hstep
        simp only [Option.some.injEq] at hstep
        have hadds : ci.adicionais =
            (_match_additions scorer it (additionsFor menu product.pdv) product).1 := by
          rw [← hstep]
          rfl
        rw [hadds] at ha
        unfold _match_additions at ha
        rw [matchAdditionsList_spec] at ha
        rcases List.mem_map.mp ha with ⟨m, hm, hme⟩
        rcases List.mem_filterMap.mp hm with ⟨atext, _, hmt⟩
        have hmem : m ∈ additionsFor menu product.pdv :=
          _match_addition_mem scorer atext _ m hmt
        rcases List.mem_filter.mp hmem with ⟨hmenu, hty⟩
        simp only [Bool.and_eq_true] at hty
        refine ⟨by rw [← hme]; rfl, m, hmenu, by simpa using hty.1, ?_, ?_, ?_⟩
        · rw [← hme]; rfl
        · rw [← hme]; rfl
        · rw [← hme]; rfl

/-- C9 witness: the `Bacon` addition attached to the concrete matched cart
line has quantity 1 and carries the cleaned name and price of the menu
entry it resolved to. -/
theorem c9_witness :
    (((matchLoop wScorer wMenu [wItem1]).1.getD 0
        (cartItemOf wItem1 wProduct [])).adicionais.getD 0
        (cartAdditionOf wProduct)).quantidade = 1 ∧
    ∃ m ∈ wMenu, m.item_type = str "addition" ∧
      (((matchLoop wScorer wMenu [wItem1]).1.getD 0
          (cartItemOf wItem1 wProduct [])).adicionais.getD 0
          (cartAdditionOf wProduct)).pdv = m.pdv ∧
      (((matchLoop wScorer wMenu [wItem1]).1.getD 0
          (cartItemOf wItem1 wProduct [])).adicionais.getD 0
          (cartAdditionOf wProduct)).nome = _clean_addition_name m.nome_original ∧
      (((matchLoop wScorer wMenu [wItem1]).1.getD 0
          (cartItemOf wItem1 wProduct [])).adicionais.getD 0
          (cartAdditionOf wProduct)).preco_unitario = _to_decimal m.price :=
  c9_addition_quantity wScorer [wItem1] wMenu wItem1.raw
    ((matchLoop wScorer wMenu [wItem1]).1.getD 0 (cartItemOf wItem1 wProduct []))
    (((matchLoop wScorer wMenu [wItem1]).1.getD 0
      (cartItemOf wItem1 wProduct [])).adicionais.getD 0
      (cartAdditionOf wProduct))
    (by decide) (by decide)

theorem extractOneAux_some_isSome (sc : Scorer) (q : Str) :
    ∀ (l : List Str) (i0 : Nat) (acc : Str × ℚ × Nat),
      (extractOneAux sc q l i0 (some acc)).isSome := by
  intro l
  induction l with
  | nil => intro i0 acc; simp [extractOneAux]
  | cons c t ih =>
      intro i0 acc
      obtain ⟨bc, bs, bi⟩ := acc
      rw [extractOneAux]
      by_cases hlt : bs < sc q c
      · simp only [hlt, if_true]
        exact ih (i0 + 1) (c, sc q c, i0)
      · simp only [hlt, if_false]
        exact ih (i0 + 1) (bc, bs, bi)

theorem extractOneAux_spec (sc : Scorer) (q : Str) :
    ∀ (l : List Str) (i0 : Nat) (bc : Str) (bs : ℚ) (bi : Nat)
      (m : Str) (s : ℚ) (i : Nat),
      extractOneAux sc q l i0 (some (bc, bs, bi)) = some (m, s, i) →
      ((m = bc ∧ s = bs ∧ i = bi) ∧
        ∀ k, k < l.length → sc q (l.getD k []) ≤ s) ∨
      (∃ k, k < l.length ∧ i = i0 + k ∧ m = l.getD k [] ∧ s = sc q m ∧
        bs < s ∧ (∀ j, j < k → sc q (l.getD j []) < s) ∧
        (∀ j, k ≤ j → j < l.length → sc q (l.getD j []) ≤ s)) := by
  intro l
  induction l with
  | nil =>
      intro i0 bc bs bi m s i h
      left
      simp only [extractOneAux, Option.some.injEq, Prod.mk.injEq] at h
      refine ⟨⟨h.1.symm, h.2.1.symm, h.2.2.symm⟩, ?_⟩
      intro k hk
      simp at hk
  | cons c t ih =>
      intro i0 bc bs bi m s i h
      rw [extractOneAux] at h
      by_cases hlt : bs < sc q c
      · simp only [hlt, if_true] at h
        rcases ih (i0 + 1) c (sc q c) i0 m s i h with
          ⟨⟨hm, hs, hi⟩, hall⟩ | ⟨k, hk, hi, hm, hs, hbs, hbefore, hafter⟩
        · right
          refine ⟨0, by simp, by omega, by simpa using hm, ?_, ?_, ?_, ?_⟩
          · rw [hm, hs]
          · rw [hs]; exact hlt
          · intro j hj; omega
          · intro j _ hj
            cases j with
            | zero => simp [hs]
            | succ j2 =>
                have := hall j2 (by simpa using hj)
                simpa using this
        · right
          refine ⟨k + 1, by simpa using hk, by omega, by simpa using hm, hs, ?_, ?_, ?_⟩
          · exact lt_trans hlt hbs
          · intro j hj
            cases j with
            | zero => simpa using hbs
            | succ j2 =>
                have := hbefore j2 (by omega)
                simpa using this
          · intro j hj1 hj2
            cases j with
            | zero => omega
            | succ j2 =>
                have := hafter j2 (by omega) (by simpa using hj2)
                simpa using this
      · simp only [hlt, if_false] at h
        rcases ih (i0 + 1) bc bs bi m s i h with
          ⟨⟨hm, hs, hi⟩, hall⟩ | ⟨k, hk, hi, hm, hs, hbs, hbefore, hafter⟩
        · left
          refine ⟨⟨hm, hs, hi⟩, ?_⟩
          intro k hk
          cases k with
          | zero =>
              simp only [List.getD_cons_zero]
              rw [hs]
              exact le_of_not_lt hlt
          | succ k2 =>
              have := hall k2 (by simpa using hk)
              simpa using this
        · right
          refine ⟨k + 1, by simpa using hk, by omega, by simpa using hm, hs, hbs, ?_, ?_⟩
          · intro j hj
            cases j with
            | zero =>
                simp only [List.getD_cons_zero]
                exact lt_of_le_of_lt (le_of_not_lt hlt) hbs
            | succ j2 =>
                have := hbefore j2 (by omega)
                simpa using this
          · intro j hj1 hj2
            cases j with
            | zero => omega
            | succ j2 =>
                have := hafter j2 (by omega) (by simpa using hj2)
                simpa using this

theorem extractOne_spec (sc : Scorer) (q : Str) (l : List Str)
    (m : Str) (s : ℚ) (i : Nat)
    (h : extractOne sc q l = some (m, s, i)) :
    i < l.length ∧ m = l.getD i [] ∧ s = sc q m ∧
    (∀ j, j < l.length → sc q (l.getD j []) ≤ s) ∧
    (∀ j, j < i → sc q (l.getD j []) < s) := by
  cases l with
  | nil => simp [extractOne, extractOneAux] at h
  | cons c t =>
      replace h : extractOneAux sc q t 1 (some (c, sc q c, 0)) = some (m, s, i) := h
      rcases extractOneAux_spec sc q t 1 c (sc q c) 0 m s i h with
        ⟨⟨hm, hs, hi⟩, hall⟩ | ⟨k, hk, hi, hm, hs, hbs, hbefore, hafter⟩
      · subst hm; subst hs; subst hi
        refine ⟨by simp, by simp, rfl, ?_, by omega⟩
        intro j hj
        cases j with
        | zero => simp
        | succ j2 =>
            have := hall j2 (by simpa using hj)
            simpa using this
      · subst hi; subst hm; subst hs
        have hidx : 1 + k = k + 1 := by omega
        refine ⟨by simpa [hidx] using Nat.succ_lt_succ hk, ?_, ?_, ?_, ?_⟩
        · simp [hidx]
        · simp [hidx]
        · intro j hj
          cases j with
          | zero =>
              simp only [List.getD_cons_zero]
              exact le_of_lt hbs
          | succ j2 =>
              have hj2 : j2 < t.length := by simpa using hj
              by_cases hx : j2 < k
              · exact le_of_lt (by simpa using hbefore j2 hx)
              · simpa using hafter j2 (by omega) hj2
        · intro j hj
          cases j with
          | zero =>
              simp only [List.getD_cons_zero]
              exact hbs
          | succ j2 =>
              have := hbefore j2 (by omega)
              simpa using this

theorem getD_map_normalize (l : List Str) (j : Nat) :
    (l.map normalize_text).getD j [] = normalize_text (l.getD j []) := by
  unfold List.getD
  rw [List.get?_map]
  cases hq : l.get? j with
  | none => rfl
  | some a => rfl

/-- C3 counterexample: with every candidate scoring strictly below the
threshold, `find_best_match` does not return `(none, 0.0)` — it returns
`none` paired with the best (sub-threshold) score.  The constant scorer 50
models rapidfuzz `fuzz.WRatio` on the one pair exercised here
(`WRatio("abcd", "abxy") = 50.0`: two substitutions in four characters). -/
def wratio50 : Scorer := fun _ _ => 50

theorem c3_counterexample :
    find_best_match wratio50 (str "abcd") [str "abxy"] (6/10) =
      (none, 50 / 100) ∧
    ((50 : ℚ) / 100 ≠ 0) ∧ ((50 : ℚ) / 100 < 6 / 10) := by
  refine ⟨?_, by norm_num, by norm_num⟩
  have he : extractOne wratio50 (normalize_text (str "abcd"))
      ([str "abxy"].map normalize_text) =
        some (normalize_text (str "abxy"), 50, 0) := rfl
  simp only [find_best_match, List.isEmpty_cons, Bool.false_eq_true, if_false, he]
  rw [if_pos (by norm_num)]

/-- C3 amended: `find_best_match` returns `(none, 0)` on an empty candidate
list; on a non-empty list there is a best index (maximal score, first among
equals, deterministically): when its score (divided by 100) is below the
threshold the function returns `none` PAIRED WITH THAT SCORE (not 0), and
otherwise it returns the original (non-normalized) candidate at that index
together with the score. -/
theorem c3_find_best_match (scorer : Scorer) (query : Str) (cands : List Str)
    (threshold : ℚ) :
    (cands = [] → find_best_match scorer query cands threshold = (none, 0)) ∧
    (cands ≠ [] →
      ∃ idx, idx < cands.length ∧
        (∀ j, j < cands.length →
          scorer (normalize_text query) (normalize_text (cands.getD j [])) ≤
            scorer (normalize_text query) (normalize_text (cands.getD idx []))) ∧
        (∀ j, j < idx →
          scorer (normalize_text query) (normalize_text (cands.getD j [])) <
            scorer (normalize_text query) (normalize_text (cands.getD idx []))) ∧
        (scorer (normalize_text query) (normalize_text (cands.getD idx [])) / 100 <
            threshold →
          find_best_match scorer query cands threshold =
            (none,
              scorer (normalize_text query) (normalize_text (cands.getD idx [])) / 100)) ∧
        (threshold ≤
            scorer (normalize_text query) (normalize_text (cands.getD idx [])) / 100 →
          find_best_match scorer query cands threshold =
            (some (cands.getD idx []),
              scorer (normalize_text query) (normalize_text (cands.getD idx [])) / 100))) := by
  constructor
  · intro h
    subst h
    rfl
  · intro hne
    have hempty : cands.isEmpty = false := by
      cases cands with
      | nil => exact absurd rfl hne
      | cons c t => rfl
    have hsome : (extractOne scorer (normalize_text query)
        (cands.map normalize_text)).isSome := by
      cases cands with
      | nil => exact absurd rfl hne
      | cons c t =>
          show (extractOneAux scorer (normalize_text query) (t.map normalize_text) 1
            (some (normalize_text c,
              scorer (normalize_text query) (normalize_text c), 0))).isSome
          exact extractOneAux_some_isSome scorer (normalize_text query) _ _ _
    rcases ho : extractOne scorer (normalize_text query) (cands.map normalize_text) with
      _ | ⟨m, s100, idx⟩
    · rw [ho] at hsome
      simp at hsome
    · rcases extractOne_spec scorer (normalize_text query)
        (cands.map normalize_text) m s100 idx ho with ⟨hidx, hm, hs, hall, hfirst⟩
      have hlen : idx < cands.length := by simpa using hidx
      have hsval : s100 =
          scorer (normalize_text query) (normalize_text (cands.getD idx [])) := by
        rw [hs, hm, getD_map_normalize]
      refine ⟨idx, hlen, ?_, ?_, ?_, ?_⟩
      · intro j hj
        have := hall j (by simpa using hj)
        rw [getD_map_normalize] at this
        rw [← hsval]
        exact this
      · intro j hj
        have := hfirst j hj
        rw [getD_map_normalize] at this
        rw [← hsval]
        exact this
      · intro hlt
        simp only [find_best_match, hempty, Bool.false_eq_true, if_false, ho]
        rw [← hsval] at hlt
        rw [if_pos hlt, hsval]
      · intro hge
        simp only [find_best_match, hempty, Bool.false_eq_true, if_false, ho]
        rw [← hsval] at hge
        rw [if_neg (not_lt.mpr hge), hsval]


/-! ### C5: quantities produced by the segmenter -/

/-- Does this pattern token only ever match characters that are not digits? -/
def tokNonDigit : Tok → Bool
  | Tok.ch p => !(pyLower p).isDigit
  | Tok.gap => true

/-- Whitespace characters are not digits. -/
theorem isPySpace_not_digit (c : Char) (h : isPySpace c = true) : c.isDigit = false := by
  unfold isPySpace at h
  simp only [Bool.or_eq_true, decide_eq_true_eq] at h
  rcases h with ((((h | h) | h) | h) | h) | h <;> subst h <;> decide

/-- A successful accent lookup comes from a row of the accent table. -/
theorem accentLookup_mem (c a l : Char) (h : accentLookup c = some (a, l)) :
    (c, a, l) ∈ accentTable := by
  unfold accentLookup at h
  rcases Option.map_eq_some'.mp h with ⟨e, hfind, hsnd⟩
  obtain ⟨k, a', l'⟩ := e
  have hk : k = c := by simpa using List.find?_some hfind
  have hmem := List.mem_of_find?_eq_some hfind
  simp only [Prod.mk.injEq] at hsnd
  rw [hk, hsnd.1, hsnd.2] at hmem
  exact hmem

/-- No character of the accent table, in any column, is a digit. -/
theorem accentTable_no_digit :
    ∀ x ∈ accentTable,
      x.1.isDigit = false ∧ x.2.1.isDigit = false ∧ x.2.2.isDigit = false := by
  decide

/-- Transliterating accents preserves digit-ness. -/
theorem isDigit_deaccentChar (c : Char) : (deaccentChar c).isDigit = c.isDigit := by
  unfold deaccentChar
  cases h : accentLookup c with
  | none => rfl
  | some q =>
      obtain ⟨a, l⟩ := q
      have hmem := accentLookup_mem c a l h
      obtain ⟨h1, h2, _⟩ := accentTable_no_digit _ hmem
      have h1' : c.isDigit = false := h1
      have h2' : a.isDigit = false := h2
      show a.isDigit = c.isDigit
      rw [h1', h2']

/-- ASCII lowercasing preserves digit-ness. -/
theorem isDigit_asciiLower (c : Char) : (asciiLower c).isDigit = c.isDigit := by
  unfold asciiLower
  cases h : asciiUpperTable.find? (fun e => e.1 = c) with
  | none => rfl
  | some e =>
      obtain ⟨u, l⟩ := e
      have hmem := List.mem_of_find?_eq_some h
      have hu : u = c := by simpa using List.find?_some h
      have hfacts : ∀ x ∈ asciiUpperTable, x.1.isDigit = false ∧ x.2.isDigit = false := by
        decide
      obtain ⟨h1, h2⟩ := hfacts _ hmem
      have h1' : u.isDigit = false := h1
      have h2' : l.isDigit = false := h2
      show l.isDigit = c.isDigit
      rw [h2', ← hu, h1']

/-- Python lowercasing preserves digit-ness. -/
theorem isDigit_pyLower (c : Char) : (pyLower c).isDigit = c.isDigit := by
  unfold pyLower
  cases h : accentLookup c with
  | none => exact isDigit_asciiLower c
  | some q =>
      obtain ⟨a, l⟩ := q
      have hmem := accentLookup_mem c a l h
      obtain ⟨h1, _, h3⟩ := accentTable_no_digit _ hmem
      have h1' : c.isDigit = false := h1
      have h3' : l.isDigit = false := h3
      show l.isDigit = c.isDigit
      rw [h1', h3']

/-- Every character of a word produced by `splitWsAux` comes from the
accumulator or from the remaining input. -/
theorem splitWsAux_chars :
    ∀ (u acc w : Str), w ∈ splitWsAux u acc → ∀ c ∈ w, c ∈ acc ∨ c ∈ u := by
  intro u
  induction u with
  | nil =>
      intro acc w hw c hc
      by_cases hacc : acc = []
      · simp [splitWsAux, hacc] at hw
      · simp only [splitWsAux, if_neg hacc, List.mem_singleton] at hw
        subst hw
        exact Or.inl (List.mem_reverse.mp hc)
  | cons c0 t ih =>
      intro acc w hw c hc
      by_cases hsp : isPySpace c0
      · by_cases hacc : acc = []
        · simp only [splitWsAux, hsp, if_true, if_pos hacc] at hw
          rcases ih [] w hw c hc with h | h
          · exact absurd h (List.not_mem_nil c)
          · exact Or.inr (List.mem_cons_of_mem _ h)
        · simp only [splitWsAux, hsp, if_true, if_neg hacc] at hw
          rcases List.mem_cons.mp hw with hw1 | hw2
          · subst hw1
            exact Or.inl (List.mem_reverse.mp hc)
          · rcases ih [] w hw2 c hc with h | h
            · exact absurd h (List.not_mem_nil c)
            · exact Or.inr (List.mem_cons_of_mem _ h)
      · simp only [splitWsAux, hsp, Bool.false_eq_true, if_false] at hw
        rcases ih (c0 :: acc) w hw c hc with h | h
        · rcases List.mem_cons.mp h with h1 | h2
          · subst h1
            exact Or.inr (List.mem_cons_self _ _)
          · exact Or.inl h2
        · exact Or.inr (List.mem_cons_of_mem _ h)

/-- Every character of a space-join is a space or comes from one of the
joined words. -/
theorem joinSpace_chars :
    ∀ (ws : List Str) (c : Char), c ∈ joinSpace ws → c = ' ' ∨ ∃ w ∈ ws, c ∈ w := by
  intro ws
  induction ws with
  | nil => intro c hc; simp [joinSpace] at hc
  | cons w vs ih =>
      intro c hc
      cases vs with
      | nil => exact Or.inr ⟨w, List.mem_cons_self _ _, hc⟩
      | cons v vs2 =>
          rw [show joinSpace (w :: v :: vs2) = w ++ ' ' :: joinSpace (v :: vs2) from rfl]
            at hc
          rcases List.mem_append.mp hc with h | h
          · exact Or.inr ⟨w, List.mem_cons_self _ _, h⟩
          · rcases List.mem_cons.mp h with h1 | h2
            · exact Or.inl h1
            · rcases ih c h2 with h3 | ⟨b, hb, hcb⟩
              · exact Or.inl h3
              · exact Or.inr ⟨b, List.mem_cons_of_mem _ hb, hcb⟩

/-- Dropping a suffix keeps membership. -/
theorem dropEndWhile_subset (p : Char → Bool) (s : Str) :
    ∀ c ∈ dropEndWhile p s, c ∈ s := by
  intro c hc
  unfold dropEndWhile at hc
  rw [List.mem_reverse] at hc
  have h2 : c ∈ s.reverse := (List.dropWhile_sublist p).subset hc
  exact List.mem_reverse.mp h2

/-- Stripping whitespace keeps membership. -/
theorem stripWs_subset (s : Str) : ∀ c ∈ stripWs s, c ∈ s := by
  intro c hc
  unfold stripWs at hc
  have h1 := dropEndWhile_subset isPySpace _ c hc
  exact (List.dropWhile_sublist isPySpace).subset h1

/-- Stripping characters keeps membership. -/
theorem stripAnyOf_subset (bad s : Str) : ∀ c ∈ stripAnyOf bad s, c ∈ s := by
  intro c hc
  unfold stripAnyOf at hc
  have h1 := dropEndWhile_subset _ _ c hc
  exact (List.dropWhile_sublist _).subset h1

/-- Every character of a normalized text is a space or the lowered,
de-accented image of a character of the input. -/
theorem normalize_text_chars (s : Str) :
    ∀ c ∈ normalize_text s, c = ' ' ∨ ∃ d ∈ s, c = asciiLower (deaccentChar d) := by
  intro c hc
  unfold normalize_text at hc
  by_cases hs : s = []
  · rw [if_pos hs] at hc
    simp at hc
  · rw [if_neg hs] at hc
    have h1 : c ∈ joinSpace (splitWs (s.map (fun d => asciiLower (deaccentChar d)))) :=
      stripAnyOf_subset _ _ c hc
    rcases joinSpace_chars _ c h1 with h | ⟨w, hw, hcw⟩
    · exact Or.inl h
    · rcases splitWsAux_chars _ [] w hw c hcw with h2 | h2
      · exact absurd h2 (List.not_mem_nil c)
      · rcases List.mem_map.mp h2 with ⟨d, hd, hde⟩
        exact Or.inr ⟨d, hd, hde.symm⟩

/-- Normalization of a digit-free text is digit-free. -/
theorem normalize_no_digit (s : Str) (h : ∀ c ∈ s, c.isDigit = false) :
    ∀ c ∈ normalize_text s, c.isDigit = false := by
  intro c hc
  rcases normalize_text_chars s c hc with h1 | ⟨d, hd, hde⟩
  · subst h1
    decide
  · subst hde
    rw [isDigit_asciiLower, isDigit_deaccentChar]
    exact h d hd

/-- A digit-free string has an empty leading digit run. -/
theorem takeWhile_isDigit_nil (u : Str) (h : ∀ c ∈ u, c.isDigit = false) :
    u.takeWhile Char.isDigit = [] := by
  cases u with
  | nil => rfl
  | cons c t =>
      have hc : c.isDigit = false := h c (List.mem_cons_self _ _)
      simp [List.takeWhile_cons, hc]

/-- `int(float(s))` fails on a digit-free string (ignoring the sign). -/
theorem pyFloatTail_none (sign : Int) (u : Str) (h : ∀ c ∈ u, c.isDigit = false) :
    pyFloatTail sign u = none := by
  cases u with
  | nil => rfl
  | cons c t =>
      have hc : c.isDigit = false := h c (List.mem_cons_self _ _)
      have ht : ∀ d ∈ t, d.isDigit = false := fun d hd => h d (List.mem_cons_of_mem _ hd)
      have htw : (c :: t).takeWhile Char.isDigit = [] := takeWhile_isDigit_nil _ h
      have hdw : (c :: t).dropWhile Char.isDigit = c :: t := by
        simp [List.dropWhile_cons, hc]
      simp only [pyFloatTail, htw, hdw]
      split
      · rename_i heq
        exact absurd heq (by simp)
      · rename_i t2 heq
        injection heq with h1 h2
        subst h2
        simp [takeWhile_isDigit_nil t ht]
      · rfl

/-- `int(float(s))` fails on a digit-free string. -/
theorem pyFloatToInt_none (s : Str) (h : ∀ c ∈ s, c.isDigit = false) :
    pyFloatToInt s = none := by
  unfold pyFloatToInt
  split
  · rename_i t
    exact pyFloatTail_none 1 t fun d hd => h d (List.mem_cons_of_mem _ hd)
  · rename_i t
    exact pyFloatTail_none (-1) t fun d hd => h d (List.mem_cons_of_mem _ hd)
  · exact pyFloatTail_none 1 _ h

/-- A digit-free string has no digit runs. -/
theorem digitRunsAux_nil :
    ∀ (u : Str), (∀ c ∈ u, c.isDigit = false) → digitRunsAux u [] = [] := by
  intro u
  induction u with
  | nil => intro _; rfl
  | cons c t ih =>
      intro h
      have hc : c.isDigit = false := h c (List.mem_cons_self _ _)
      have ht : ∀ d ∈ t, d.isDigit = false := fun d hd => h d (List.mem_cons_of_mem _ hd)
      simp only [digitRunsAux, hc, Bool.false_eq_true, if_false]
      exact ih ht

/-- `extract_numbers` finds nothing in a digit-free string. -/
theorem extract_numbers_nil (u : Str) (h : ∀ c ∈ u, c.isDigit = false) :
    extract_numbers u = [] := by
  unfold extract_numbers digitRuns
  rw [digitRunsAux_nil u h]
  rfl

/-- A successful association-list lookup returns a stored value. -/
theorem lookupQty_mem :
    ∀ (l : List (Str × Int)) (k : Str) (n : Int),
      lookupQty l k = some n → ∃ a, (a, n) ∈ l := by
  intro l
  induction l with
  | nil => intro k n h; simp [lookupQty] at h
  | cons q t ih =>
      intro k n h
      obtain ⟨a, v⟩ := q
      by_cases ha : a = k
      · simp only [lookupQty, if_pos ha] at h
        injection h with h1
        subst h1
        exact ⟨a, List.mem_cons_self _ _⟩
      · simp only [lookupQty, if_neg ha] at h
        obtain ⟨b, hb⟩ := ih k n h
        exact ⟨b, List.mem_cons_of_mem _ hb⟩

/-- `parse_quantity` on a digit-free string is at least 1: the word map only
stores values ≥ 1, the float parse fails, no digit run exists, so the result
is a map value or the default 1. -/
theorem parse_quantity_pos (s : Str) (h : ∀ c ∈ s, c.isDigit = false) :
    1 ≤ parse_quantity s := by
  have hn : ∀ c ∈ normalize_text s, c.isDigit = false := normalize_no_digit s h
  simp only [parse_quantity]
  cases hq : lookupQty quantityWordMap (normalize_text s) with
  | some n =>
      obtain ⟨a, hmem⟩ := lookupQty_mem _ _ _ hq
      have hvals : ∀ q ∈ quantityWordMap, 1 ≤ q.2 := by decide
      exact hvals (a, n) hmem
  | none =>
      have h2 := pyFloatToInt_none (normalize_text s) hn
      have h3 := extract_numbers_nil (normalize_text s) hn
      rw [h2, h3]

/-- Every character consumed by a token-pattern match is whitespace or
case-folds to one of the pattern's literal characters. -/
theorem matchToksSplit_chars :
    ∀ (ts : List Tok) (s con rest : Str),
      matchToksSplit ts s = some (con, rest) →
      ∀ c ∈ con, isPySpace c = true ∨ ∃ p, Tok.ch p ∈ ts ∧ pyLower c = pyLower p := by
  intro ts
  induction ts with
  | nil =>
      intro s con rest h c hc
      simp only [matchToksSplit, Option.some.injEq, Prod.mk.injEq] at h
      rw [← h.1] at hc
      exact absurd hc (List.not_mem_nil c)
  | cons tk ts ih =>
      intro s con rest h c hc
      cases tk with
      | ch p =>
          cases s with
          | nil => simp [matchToksSplit] at h
          | cons c0 t =>
              by_cases hc0 : charIEq c0 p
              · cases hm : matchToksSplit ts t with
                | none => simp [matchToksSplit, hc0, hm] at h
                | some q =>
                    obtain ⟨q1, q2⟩ := q
                    simp only [matchToksSplit, hc0, if_true, hm,
                      Option.some.injEq, Prod.mk.injEq] at h
                    rw [← h.1] at hc
                    rcases List.mem_cons.mp hc with h1 | h2
                    · subst h1
                      refine Or.inr ⟨p, List.mem_cons_self _ _, ?_⟩
                      simpa [charIEq] using hc0
                    · rcases ih t q1 q2 hm c h2 with hs | ⟨b, hb, he⟩
                      · exact Or.inl hs
                      · exact Or.inr ⟨b, List.mem_cons_of_mem _ hb, he⟩
              · simp [matchToksSplit, hc0] at h
      | gap =>
          by_cases hrun : s.takeWhile isPySpace = []
          · simp [matchToksSplit, hrun] at h
          · cases hm : matchToksSplit ts (s.dropWhile isPySpace) with
            | none => simp [matchToksSplit, hrun, hm] at h
            | some q =>
                obtain ⟨q1, q2⟩ := q
                simp only [matchToksSplit, hrun, if_false, hm,
                  Option.some.injEq, Prod.mk.injEq] at h
                rw [← h.1] at hc
                rcases List.mem_append.mp hc with h1 | h2
                · exact Or.inl (List.mem_takeWhile_imp h1)
                · rcases ih _ q1 q2 hm c h2 with hs | ⟨b, hb, he⟩
                  · exact Or.inl hs
                  · exact Or.inr ⟨b, List.mem_cons_of_mem _ hb, he⟩

/-- A keyword-alternation match consumes characters of one alternative only. -/
theorem kwMatchRest_chars :
    ∀ (kws : List (List Tok)) (s con rest : Str),
      kwMatchRest kws s = some (con, rest) →
      ∃ ts ∈ kws, ∀ c ∈ con,
        isPySpace c = true ∨ ∃ p, Tok.ch p ∈ ts ∧ pyLower c = pyLower p := by
  intro kws
  induction kws with
  | nil => intro s con rest h; simp [kwMatchRest] at h
  | cons kw more ih =>
      intro s con rest h
      cases hm : matchToksSplit kw s with
      | none =>
          simp only [kwMatchRest, hm] at h
          obtain ⟨ts, hts, hch⟩ := ih s con rest h
          exact ⟨ts, List.mem_cons_of_mem _ hts, hch⟩
      | some q =>
          obtain ⟨q1, q2⟩ := q
          simp only [kwMatchRest, hm] at h
          by_cases hb : boundaryAfterOk q2
          · simp only [hb, if_true, Option.some.injEq, Prod.mk.injEq] at h
            refine ⟨kw, List.mem_cons_self _ _, ?_⟩
            intro c hc
            rw [← h.1] at hc
            exact matchToksSplit_chars kw s q1 q2 hm c hc
          · simp only [hb, if_false] at h
            obtain ⟨ts, hts, hch⟩ := ih s con rest h
            exact ⟨ts, List.mem_cons_of_mem _ hts, hch⟩

/-- Every literal character of the word-number patterns case-folds to a
non-digit. -/
theorem wordNumAlts_nonDigit :
    ∀ ts ∈ wordNumAlts, ∀ tk ∈ ts, tokNonDigit tk = true := by
  decide

/-- A word-quantity match consumes no digit characters. -/
theorem wordQtyMatch_no_digit (s w rest : Str) (h : wordQtyMatch s = some (w, rest)) :
    ∀ c ∈ w, c.isDigit = false := by
  intro c hc
  obtain ⟨ts, hts, hchars⟩ := kwMatchRest_chars wordNumAlts s w rest h
  rcases hchars c hc with hsp | ⟨p, hp, heq⟩
  · exact isPySpace_not_digit c hsp
  · have htok := wordNumAlts_nonDigit ts hts _ hp
    have hpd : (pyLower p).isDigit = false := by
      simpa [tokNonDigit] using htok
    rw [← isDigit_pyLower c, heq]
    exact hpd

/-- A segment-quantity match returns the nonempty leading digit run. -/
theorem segmentQtyMatch_fst (s ds rest : Str) (h : segmentQtyMatch s = some (ds, rest)) :
    ds = s.takeWhile Char.isDigit ∧ s.takeWhile Char.isDigit ≠ [] := by
  by_cases hds : s.takeWhile Char.isDigit = []
  · exfalso
    simp only [segmentQtyMatch] at h
    rw [if_pos hds] at h
    exact Option.noConfusion h
  · simp only [segmentQtyMatch] at h
    rw [if_neg hds] at h
    refine ⟨?_, hds⟩
    split at h
    · split at h
      · simp only [Option.some.injEq, Prod.mk.injEq] at h
        exact h.1.symm
      · simp only [Option.some.injEq, Prod.mk.injEq] at h
        exact h.1.symm
    · simp only [Option.some.injEq, Prod.mk.injEq] at h
      exact h.1.symm

/-- Quantity of one parsed segment: at least 1, except when the segment
starts with an explicit digit run whose value is 0. -/
theorem _parse_segment_quantity (seg : Str) :
    1 ≤ (_parse_segment seg).quantity ∨
      ((_parse_segment seg).quantity = 0 ∧
       (_parse_segment seg).raw.takeWhile Char.isDigit ≠ [] ∧
       natOfDigits ((_parse_segment seg).raw.takeWhile Char.isDigit) = 0) := by
  have hraw : (_parse_segment seg).raw = stripWs seg := by
    unfold _parse_segment
    rfl
  have hq0 : (_parse_segment seg).quantity =
      ((match segmentQtyMatch (stripWs seg) with
        | some (ds, g2) => ((natOfDigits ds : Int), stripWs g2)
        | none =>
            match wordQtyMatch (stripWs seg) with
            | some (w, rest) => (parse_quantity w, stripWs rest)
            | none => (1, stripWs (stripWs seg)) : Int × Str)).1 := rfl
  cases hm : segmentQtyMatch (stripWs seg) with
  | some q =>
      obtain ⟨ds, g2⟩ := q
      have hq : (_parse_segment seg).quantity = ((natOfDigits ds : Nat) : Int) := by
        rw [hq0, hm]
      obtain ⟨hds, hne⟩ := segmentQtyMatch_fst _ _ _ hm
      by_cases hz : natOfDigits ds = 0
      · right
        refine ⟨?_, ?_, ?_⟩
        · rw [hq, hz]
          rfl
        · rw [hraw]
          exact hne
        · rw [hraw, ← hds]
          exact hz
      · left
        rw [hq]
        exact_mod_cast Nat.one_le_iff_ne_zero.mpr hz
  | none =>
      cases hw : wordQtyMatch (stripWs seg) with
      | some q =>
          obtain ⟨w, rest⟩ := q
          have hq : (_parse_segment seg).quantity = parse_quantity w := by
            rw [hq0, hm, hw]
          left
          rw [hq]
          exact parse_quantity_pos w (wordQtyMatch_no_digit _ _ _ hw)
      | none =>
          left
          have hq : (_parse_segment seg).quantity = 1 := by
            rw [hq0, hm, hw]
          rw [hq]

/-- C5 counterexample: the input "0 pizza" yields one parsed item whose
quantity is the explicit 0, so it is not true that every parsed item of the
segmenter has quantity at least 1. -/
theorem c5_counterexample :
    (parse_order_text (str "0 pizza")).map (fun it => it.quantity) = [0] ∧
    ¬ (∀ (s : Str), ∀ it ∈ parse_order_text s, 1 ≤ it.quantity) := by
  constructor
  · decide
  · intro hall
    have h1 := hall (str "0 pizza")
      ((parse_order_text (str "0 pizza")).getD 0
        { raw := [], quantity := 0, name := [] })
      (by decide)
    revert h1
    decide

/-- C5 (amended): every item produced by `parse_order_text` has quantity at
least 1 — word quantities map to values ≥ 1 and an unparseable leading
quantity defaults to 1 — except when the segment carries an explicit leading
digit run whose numeric value is 0, in which case the quantity is that
explicit 0. -/
theorem c5_quantity (s : Str) (it : ParsedItem) (h : it ∈ parse_order_text s) :
    1 ≤ it.quantity ∨
      (it.quantity = 0 ∧ it.raw.takeWhile Char.isDigit ≠ [] ∧
       natOfDigits (it.raw.takeWhile Char.isDigit) = 0) := by
  unfold parse_order_text at h
  by_cases hs : s = []
  · rw [if_pos hs] at h
    simp at h
  · rw [if_neg hs] at h
    rcases List.mem_map.mp h with ⟨seg, hseg, hit⟩
    rw [← hit]
    exact _parse_segment_quantity seg

/-- C5 witness: the item parsed from "dois pizza" is in the output and
satisfies the quantity property. -/
theorem c5_witness :
    (parse_order_text (str "dois pizza")).getD 0 { raw := [], quantity := 0, name := [] }
        ∈ parse_order_text (str "dois pizza") ∧
      (1 ≤ ((parse_order_text (str "dois pizza")).getD 0
            { raw := [], quantity := 0, name := [] }).quantity ∨
        (((parse_order_text (str "dois pizza")).getD 0
            { raw := [], quantity := 0, name := [] }).quantity = 0 ∧
         ((parse_order_text (str "dois pizza")).getD 0
            { raw := [], quantity := 0, name := [] }).raw.takeWhile Char.isDigit ≠ [] ∧
         natOfDigits (((parse_order_text (str "dois pizza")).getD 0
            { raw := [], quantity := 0, name := [] }).raw.takeWhile Char.isDigit) = 0)) :=
  ⟨by decide, c5_quantity (str "dois pizza") _ (by decide)⟩

end S2P
